import Mathlib

/-!
# Verification of the `ts-testdoc` documentation-example test runner

This file gives a shallow embedding of the two source modules of the
`ts-testdoc` repository — `parser.ts` (JSDoc comment / example extraction)
and `runner.ts` (test-unit synthesis and isolated execution) — and settles a
list of claims about them.

Strings are modelled as Lean `String` / `List Char`; all of the JavaScript
regular expressions used by the source are hand-compiled to deterministic
recursive functions.  Each such function carries a comment quoting the regex
it implements and, where the regex engine's backtracking admits several
parses, an argument why the deterministic function agrees with the leftmost
/ greedy-first behaviour of the JS engine.

File-system access (`fs.readFileSync`, `fs.statSync`, …) is modelled by an
explicit `FsModel` record, and the spawned subprocess of `runner.ts` by an
explicit outcome datatype.
-/

namespace TsTestdoc

/-! ## JavaScript string primitives -/

/-- JS whitespace class `\s`, restricted to the ASCII range (the repository's
sources and all inputs considered here are ASCII).  JS `\s` additionally
matches some Unicode space characters, which we do not model. -/
def jsWs (c : Char) : Bool :=
  c = ' ' || c = '\t' || c = '\n' || c = '\r' || c = '\x0b' || c = '\x0c'

/-- JS word-character class `\w` = `[A-Za-z0-9_]`. -/
def wordChar (c : Char) : Bool :=
  ('a' ≤ c && c ≤ 'z') || ('A' ≤ c && c ≤ 'Z') || ('0' ≤ c && c ≤ '9') || c = '_'

/-- JS `String.prototype.split(sep)` for a single-character separator.
`"".split(c) = [""]`, and a trailing separator yields a trailing empty piece,
exactly as in JS. -/
def splitOnChar (sep : Char) : List Char → List (List Char)
  | [] => [[]]
  | c :: rest =>
    if c = sep then [] :: splitOnChar sep rest
    else
      match splitOnChar sep rest with
      | [] => [[c]]
      | l :: ls => (c :: l) :: ls

/-- `split("\n")`, the line-splitting used throughout `parser.ts`. -/
def splitNl (cs : List Char) : List (List Char) := splitOnChar '\n' cs

/-- JS `Array.prototype.join("\n")`. -/
def joinNl : List (List Char) → List Char
  | [] => []
  | [l] => l
  | l :: l' :: ls => l ++ '\n' :: joinNl (l' :: ls)

/-- JS `String.prototype.trim()` (ASCII): removes leading and trailing
whitespace characters of the whole string. -/
def trimJS (cs : List Char) : List Char :=
  ((cs.dropWhile jsWs).reverse.dropWhile jsWs).reverse

/-- First occurrence search: `findSub pat cs = some (pre, post)` iff `pat`
occurs in `cs`, `pre` is the part before the first occurrence and `post` the
part after it.  This is the primitive we use to determinize lazy regex
matching (`[\s\S]*?` up to a literal). -/
def findSub (pat : List Char) : List Char → Option (List Char × List Char)
  | [] => if pat.isEmpty then some ([], []) else none
  | c :: cs =>
    if pat.isPrefixOf (c :: cs) then some ([], (c :: cs).drop pat.length)
    else
      match findSub pat cs with
      | some (pre, post) => some (c :: pre, post)
      | none => none

/-- `containsSub pat cs`: does `pat` occur in `cs`? -/
def containsSub (pat cs : List Char) : Bool := (findSub pat cs).isSome

/-- JS `Array.prototype.join(sep)` on character lists. -/
def joinSep (sep : List Char) : List (List Char) → List Char
  | [] => []
  | [l] => l
  | l :: l' :: ls => l ++ sep ++ joinSep sep (l' :: ls)

/-- JS `Array.prototype.join(sep)` on strings. -/
def strJoin (sep : String) (xs : List String) : String :=
  ⟨joinSep sep.data (xs.map String.data)⟩

/-- Decimal digits of `n`, most significant first, produced with explicit
fuel so that the definition reduces in the kernel.  `natDigsAux n n` is the
digit list of any `n > 0`. -/
def natDigsAux : Nat → Nat → List Char
  | 0, _ => []
  | _ + 1, 0 => []
  | fuel + 1, n + 1 =>
    natDigsAux fuel ((n + 1) / 10) ++ [Nat.digitChar ((n + 1) % 10)]

/-- The decimal rendering of a natural number, as produced by the JS
number-to-string conversion used in template literals (`` `${i + 1}` ``). -/
def natDecStr (n : Nat) : String :=
  if n = 0 then "0" else ⟨natDigsAux n n⟩

/-- Decimal decoding used to prove `natDecStr` injective. -/
def natVal (cs : List Char) : Nat :=
  cs.foldl (fun a c => 10 * a + (c.toNat - 48)) 0

theorem natVal_append_digit (xs : List Char) (c : Char) :
    natVal (xs ++ [c]) = 10 * natVal xs + (c.toNat - 48) := by
  simp [natVal, List.foldl_append]

theorem natVal_natDigsAux : ∀ fuel n, n ≤ fuel → natVal (natDigsAux fuel n) = n := by
  intro fuel
  induction fuel with
  | zero =>
    intro n hn
    interval_cases n
    simp [natDigsAux, natVal]
  | succ f ih =>
    intro n hn
    match n with
    | 0 => simp [natDigsAux, natVal]
    | m + 1 =>
      have hd : (m + 1) / 10 ≤ f := by omega
      have hlt : (m + 1) % 10 < 10 := Nat.mod_lt _ (by omega)
      have hchar : ∀ r < 10, (Nat.digitChar r).toNat - 48 = r := by decide
      rw [natDigsAux, natVal_append_digit, ih _ hd, hchar _ hlt]
      omega

theorem natVal_natDecStr (n : Nat) : natVal (natDecStr n).data = n := by
  by_cases h : n = 0
  · subst h; simp [natDecStr]; decide
  · simp only [natDecStr, if_neg h]
    exact natVal_natDigsAux n n le_rfl

theorem natDecStr_injective : Function.Injective natDecStr := by
  intro m n h
  have := natVal_natDecStr m
  rw [h, natVal_natDecStr] at this
  omega

/-! ## `parser.ts` — cleaning and expectation annotation -/

/-- One line of `cleanExampleCode`:
`line.replace(/^\s*\*\s?/, "")`.
The regex is anchored; `\s*` is greedy and, since `*` is not a whitespace
character, the asterisk (when the pattern matches at all) must sit exactly at
the first non-whitespace position, so the match is deterministic: drop the
leading whitespace run, one `*`, and at most one further whitespace
character.  A line with no `*` after its leading whitespace is returned
unchanged (the regex does not match, `replace` is the identity). -/
def stripMarker (line : List Char) : List Char :=
  match line.dropWhile jsWs with
  | '*' :: rest =>
    match rest with
    | c :: rest' => if jsWs c then rest' else rest
    | [] => []
  | _ => line

/-- `cleanExampleCode` from `parser.ts`:
split on `"\n"`, strip one comment-continuation marker per line, join with
`"\n"`, then JS `.trim()` of the whole string. -/
def cleanExampleCode (code : String) : String :=
  ⟨trimJS (joinNl ((splitNl code.data).map stripMarker))⟩

/-- Attempt of the output-annotation regex
`/\/\/\s*(?:=>|->|output:)\s*(.+)$/`
at the head of `cs`, returning the captured-and-trimmed expectation text.
Determinization: after the literal `//`, greedy `\s*` runs to the first
non-whitespace character, which must start one of the three markers (none of
which begins with whitespace, so no backtracking into `\s*` can succeed).
After the marker, `\s*(.+)$` matches iff the remainder of the line is
non-empty, and since `.` also matches blanks, the captured group trimmed
equals the whole remainder trimmed. -/
def annotHere? (cs : List Char) : Option (List Char) :=
  match cs with
  | '/' :: '/' :: rest =>
    let after := rest.dropWhile jsWs
    let tl? : Option (List Char) :=
      if ['=', '>'].isPrefixOf after then some (after.drop 2)
      else if ['-', '>'].isPrefixOf after then some (after.drop 2)
      else if ['o', 'u', 't', 'p', 'u', 't', ':'].isPrefixOf after then some (after.drop 7)
      else none
    match tl? with
    | some t => if t.isEmpty then none else some (trimJS t)
    | none => none
  | _ => none

/-- `line.match(/\/\/\s*(?:=>|->|output:)\s*(.+)$/)` followed by
`match[1].trim()`: the leftmost position at which the annotation pattern
matches wins (a `//` whose tail fails the pattern is skipped and the scan
continues at the next character, as the JS engine does). -/
def matchAnnot : List Char → Option (List Char)
  | [] => none
  | c :: cs =>
    match annotHere? (c :: cs) with
    | some r => some r
    | none => matchAnnot cs

/-- Result record of `extractExpectedOutput`. -/
structure Annotated where
  code : String
  expected : Option String
deriving DecidableEq, Repr

/-- Loop body of `extractExpectedOutput`: every line is pushed onto the
retained code lines; a line matching the annotation pattern overwrites the
`expected` accumulator. -/
def annotStep (acc : List (List Char) × Option (List Char)) (line : List Char) :
    List (List Char) × Option (List Char) :=
  (acc.1 ++ [line],
   match matchAnnot line with
   | some e => some e
   | none => acc.2)

/-- `extractExpectedOutput` from `parser.ts`: scan the lines, remember the
annotation of each matching line (later lines overwrite earlier ones), and
rejoin all lines unchanged. -/
def extractExpectedOutput (code : String) : Annotated :=
  let r := (splitNl code.data).foldl annotStep ([], none)
  ⟨⟨joinNl r.1⟩, r.2.map (fun e => (⟨e⟩ : String))⟩

/-- The Expectation Annotator as the specification words it: "Only the
*first* matching annotation found determines `expectedOutput`".  Used solely
to compare spec against code. -/
def specFirstAnnot (code : String) : Option String :=
  ((splitNl code.data).filterMap matchAnnot).head?.map (fun e => (⟨e⟩ : String))

/-- What the code actually keeps: the annotation of the *last* matching
line. -/
def lastAnnot (code : String) : Option String :=
  ((splitNl code.data).filterMap matchAnnot).getLast?.map (fun e => (⟨e⟩ : String))

/-! ## Split / join lemmas -/

theorem splitOnChar_ne_nil (sep : Char) : ∀ cs, splitOnChar sep cs ≠ []
  | [] => by simp [splitOnChar]
  | c :: rest => by
    simp only [splitOnChar]
    split
    · simp
    · cases h : splitOnChar sep rest with
      | nil => exact absurd h (splitOnChar_ne_nil sep rest)
      | cons l ls => simp

theorem joinNl_cons (l : List Char) (ls : List (List Char)) (h : ls ≠ []) :
    joinNl (l :: ls) = l ++ '\n' :: joinNl ls := by
  cases ls with
  | nil => exact absurd rfl h
  | cons l' ls' => rfl

theorem joinNl_splitNl : ∀ cs, joinNl (splitNl cs) = cs := by
  intro cs
  induction cs with
  | nil => rfl
  | cons c rest ih =>
    simp only [splitNl, splitOnChar]
    split
    · next hc =>
      rw [joinNl_cons _ _ (splitOnChar_ne_nil '\n' rest)]
      simp only [List.nil_append]
      rw [show splitOnChar '\n' rest = splitNl rest from rfl, ih, hc]
    · next hc =>
      cases h : splitOnChar '\n' rest with
      | nil => exact absurd h (splitOnChar_ne_nil '\n' rest)
      | cons l ls =>
        have hjoin : joinNl ((c :: l) :: ls) = c :: joinNl (l :: ls) := by
          cases ls with
          | nil => rfl
          | cons l' ls' => simp [joinNl]
        rw [hjoin, show splitOnChar '\n' rest = splitNl rest from rfl] at *
        rw [h] at ih
        rw [ih]

theorem splitOnChar_no_sep (sep : Char) (l : List Char) (h : sep ∉ l) :
    splitOnChar sep l = [l] := by
  induction l with
  | nil => rfl
  | cons c rest ih =>
    simp only [List.mem_cons, not_or] at h
    simp only [splitOnChar, if_neg (Ne.symm h.1)]
    rw [ih h.2]

theorem splitOnChar_append_sep (sep : Char) (l t : List Char) (h : sep ∉ l) :
    splitOnChar sep (l ++ sep :: t) = l :: splitOnChar sep t := by
  induction l with
  | nil => simp [splitOnChar]
  | cons c rest ih =>
    simp only [List.mem_cons, not_or] at h
    simp only [List.cons_append, splitOnChar, if_neg (Ne.symm h.1), List.append_eq]
    rw [ih h.2]

theorem splitNl_joinNl : ∀ pieces, pieces ≠ [] → (∀ l ∈ pieces, '\n' ∉ l) →
    splitNl (joinNl pieces) = pieces := by
  intro pieces
  induction pieces with
  | nil => intro h; exact absurd rfl h
  | cons l ls ih =>
    intro _ hno
    cases ls with
    | nil =>
      show splitNl (joinNl [l]) = [l]
      exact splitOnChar_no_sep '\n' l (hno l (List.mem_cons_self _ _))
    | cons l' ls' =>
      rw [joinNl_cons _ _ (by simp)]
      show splitOnChar '\n' (l ++ '\n' :: joinNl (l' :: ls')) = _
      rw [splitOnChar_append_sep '\n' _ _ (hno l (List.mem_cons_self _ _))]
      rw [show splitOnChar '\n' (joinNl (l' :: ls')) = splitNl (joinNl (l' :: ls')) from rfl]
      rw [ih (by simp) (fun x hx => hno x (List.mem_cons_of_mem _ hx))]

theorem getLast?_cons_elim {α : Type} (a : α) (l : List α) :
    (a :: l).getLast? = l.getLast?.elim (some a) some := by
  induction l generalizing a with
  | nil => rfl
  | cons b l' ih =>
    rw [List.getLast?_cons_cons, ih b]
    cases h : l'.getLast? <;> simp [h, ih]

/-! ## C1 — Expectation Annotator -/

theorem annotFold (ls : List (List Char)) :
    ∀ a e, (ls.foldl annotStep (a, e)).1 = a ++ ls ∧
      (ls.foldl annotStep (a, e)).2 =
        ((ls.filterMap matchAnnot).getLast?).elim e some := by
  induction ls with
  | nil => intro a e; simp
  | cons l ls ih =>
    intro a e
    simp only [List.foldl_cons, List.filterMap_cons]
    have step : annotStep (a, e) l =
        (a ++ [l], match matchAnnot l with | some x => some x | none => e) := rfl
    rw [step]
    cases hm : matchAnnot l with
    | none =>
      simpa using ih (a ++ [l]) e
    | some x =>
      obtain ⟨h1, h2⟩ := ih (a ++ [l]) (some x)
      refine ⟨by simpa using h1, ?_⟩
      rw [h2, getLast?_cons_elim]
      cases hlast : (ls.filterMap matchAnnot).getLast? <;> simp [hlast]

/-- C1 (amended): the Expectation Annotator returns the code unchanged
(annotation lines retained), and `expectedOutput` equals the trimmed trailing
text of the **last** line carrying a trailing output annotation in one of the
three recognized forms (`// =>`, `// ->`, `// output:`). -/
theorem expectation_annot_keeps_code_and_takes_last (code : String) :
    (extractExpectedOutput code).code = code ∧
    (extractExpectedOutput code).expected = lastAnnot code := by
  obtain ⟨h1, h2⟩ := annotFold (splitNl code.data) [] none
  constructor
  · show (⟨joinNl ((splitNl code.data).foldl annotStep ([], none)).1⟩ : String) = code
    rw [h1, List.nil_append, joinNl_splitNl]
  · show (((splitNl code.data).foldl annotStep ([], none)).2).map _ = _
    rw [h2, lastAnnot]
    cases h : ((splitNl code.data).filterMap matchAnnot).getLast? <;> simp [h]

/-- C1 counterexample: with two annotated lines the code keeps the trailing
text of the *last* matching line, not the first one the claim (and spec)
names. -/
theorem expectation_annot_first_refuted :
    specFirstAnnot "x // => 1\ny // => 2" = some "1" ∧
    (extractExpectedOutput "x // => 1\ny // => 2").expected = some "2" ∧
    (extractExpectedOutput "x // => 1\ny // => 2").expected ≠
      specFirstAnnot "x // => 1\ny // => 2" := by
  refine ⟨by decide, by decide, by decide⟩

/-! ## C2 — Example cleaning -/

/-- A line consisting solely of whitespace (a "blank line"). -/
def isBlankLine (l : List Char) : Bool := l.all jsWs

/-- The cleaning step as the specification words it: per line remove the
exact ` * ` continuation prefix, then trim leading/trailing *blank lines*
(only) of the whole block.  Used solely to compare spec against code. -/
def specCleanRT (code : String) : String :=
  let ls := (splitNl code.data).map
    (fun l => if " * ".data.isPrefixOf l then l.drop 3 else l)
  ⟨joinNl (((ls.dropWhile isBlankLine).reverse.dropWhile isBlankLine).reverse)⟩

/-- The first line of the block starts with a non-whitespace character. -/
def headCharNonWs (ls : List (List Char)) : Bool :=
  match ls.head?.bind List.head? with
  | some c => !jsWs c
  | none => false

/-- The last line of the block ends with a non-whitespace character. -/
def lastCharNonWs (ls : List (List Char)) : Bool :=
  match ls.getLast?.bind List.getLast? with
  | some c => !jsWs c
  | none => false

theorem stripMarker_prefixed (l : List Char) :
    stripMarker (' ' :: '*' :: ' ' :: l) = l := by
  simp [stripMarker, List.dropWhile, jsWs]

theorem dropWhile_eq_self_of_head {α : Type} {p : α → Bool} (cs : List α)
    (h : ∀ c, cs.head? = some c → p c = false) : cs.dropWhile p = cs := by
  cases cs with
  | nil => rfl
  | cons c rest => simp [List.dropWhile, h c rfl]

theorem trimJS_eq_self (cs : List Char)
    (h1 : ∀ c, cs.head? = some c → jsWs c = false)
    (h2 : ∀ c, cs.getLast? = some c → jsWs c = false) : trimJS cs = cs := by
  unfold trimJS
  rw [dropWhile_eq_self_of_head cs h1]
  rw [dropWhile_eq_self_of_head cs.reverse (fun c hc => h2 c (by
    rwa [List.head?_reverse] at hc))]
  exact List.reverse_reverse cs

theorem joinNl_head?_of_cons (c : Char) (l : List Char) (ls : List (List Char)) :
    (joinNl ((c :: l) :: ls)).head? = some c := by
  cases ls with
  | nil => rfl
  | cons l' ls' => rfl

theorem joinNl_getLast?_of_ne : ∀ (ls : List (List Char)) (l : List Char),
    (l :: ls).getLast (by simp) ≠ [] →
    (joinNl (l :: ls)).getLast? = ((l :: ls).getLast (by simp)).getLast? := by
  intro ls
  induction ls with
  | nil => intro l _; rfl
  | cons l' ls' ih =>
    intro l h
    have hglcons : (l :: l' :: ls').getLast (by simp) = (l' :: ls').getLast (by simp) :=
      List.getLast_cons (by simp)
    rw [hglcons] at h ⊢
    rw [joinNl_cons _ _ (by simp), List.getLast?_append]
    rw [getLast?_cons_elim '\n' (joinNl (l' :: ls'))]
    rw [ih l' h]
    rw [List.getLast?_eq_getLast _ (by simpa using h)]
    rfl

/-- C2 (amended, round-trip part): for a block whose every line is prefixed
with `" * "`, whose first line's content starts with a non-whitespace
character and whose last line's content ends with one, the cleaned code
equals the block content with the prefix removed from every line — and this
agrees with the specification's per-line-prefix-removal-plus-blank-line-trim
description.  (Without the two endpoint conditions JS `.trim()` also strips
indentation of the first kept line / trailing blanks of the last, which is
what the counterexample exhibits.) -/
theorem clean_example_round_trip (contents : List (List Char))
    (hnl : ∀ l ∈ contents, '\n' ∉ l)
    (hf : headCharNonWs contents = true)
    (hl : lastCharNonWs contents = true) :
    cleanExampleCode ⟨joinNl (contents.map (fun l => ' ' :: '*' :: ' ' :: l))⟩ =
      ⟨joinNl contents⟩ ∧
    specCleanRT ⟨joinNl (contents.map (fun l => ' ' :: '*' :: ' ' :: l))⟩ =
      ⟨joinNl contents⟩ := by
  obtain ⟨c0, l0, ls0, hcons, hc0⟩ :
      ∃ c0 l0 ls0, contents = (c0 :: l0) :: ls0 ∧ jsWs c0 = false := by
    simp only [headCharNonWs] at hf
    cases contents with
    | nil => simp at hf
    | cons l ls =>
      cases l with
      | nil => simp at hf
      | cons c l' => exact ⟨c, l', ls, rfl, by simpa using hf⟩
  subst hcons
  have hcne : ((c0 :: l0) :: ls0 : List (List Char)) ≠ [] := by simp
  obtain ⟨cLast, hLastSome, hLastWs⟩ :
      ∃ cLast, ((((c0 :: l0) :: ls0).getLast hcne).getLast? = some cLast) ∧
        jsWs cLast = false := by
    simp only [lastCharNonWs] at hl
    rw [List.getLast?_eq_getLast _ hcne] at hl
    simp only [Option.some_bind] at hl
    cases hgl : (((c0 :: l0) :: ls0).getLast hcne).getLast? with
    | none => rw [hgl] at hl; simp at hl
    | some c => exact ⟨c, rfl, by rw [hgl] at hl; simpa using hl⟩
  have hsplit : splitNl (joinNl (((c0 :: l0) :: ls0).map (fun l => ' ' :: '*' :: ' ' :: l))) =
      ((c0 :: l0) :: ls0).map (fun l => ' ' :: '*' :: ' ' :: l) := by
    apply splitNl_joinNl
    · simp
    · intro l hlmem
      obtain ⟨l', hl', rfl⟩ := List.mem_map.mp hlmem
      have := hnl l' hl'
      simp_all
  have hstrip : ((((c0 :: l0) :: ls0).map (fun l => ' ' :: '*' :: ' ' :: l)).map stripMarker) =
      (c0 :: l0) :: ls0 := by
    rw [List.map_map]
    have : (stripMarker ∘ fun l => ' ' :: '*' :: ' ' :: l) = id := by
      funext l; simp [stripMarker_prefixed]
    rw [this, List.map_id]
  have hLne : ((c0 :: l0) :: ls0).getLast hcne ≠ [] := by
    intro hEmpty
    rw [hEmpty] at hLastSome
    simp at hLastSome
  have hjoin_head : (joinNl ((c0 :: l0) :: ls0)).head? = some c0 :=
    joinNl_head?_of_cons c0 l0 ls0
  have hjoin_last : (joinNl ((c0 :: l0) :: ls0)).getLast? = some cLast := by
    rw [joinNl_getLast?_of_ne ls0 (c0 :: l0) hLne]
    exact hLastSome
  have htrim : trimJS (joinNl ((c0 :: l0) :: ls0)) = joinNl ((c0 :: l0) :: ls0) := by
    apply trimJS_eq_self
    · intro c hc; rw [hjoin_head] at hc
      cases hc; exact hc0
    · intro c hc; rw [hjoin_last] at hc
      cases hc; exact hLastWs
  constructor
  · show (⟨trimJS (joinNl ((splitNl _).map stripMarker))⟩ : String) = _
    rw [hsplit, hstrip, htrim]
  · show (⟨joinNl _⟩ : String) = _
    rw [hsplit]
    have hdrop3 : ((((c0 :: l0) :: ls0).map (fun l => ' ' :: '*' :: ' ' :: l)).map
        (fun l => if " * ".data.isPrefixOf l then l.drop 3 else l)) = (c0 :: l0) :: ls0 := by
      rw [List.map_map]
      have hpd : (" * " : String).data = [' ', '*', ' '] := rfl
      have : ((fun l => if " * ".data.isPrefixOf l then l.drop 3 else l) ∘
          fun l => ' ' :: '*' :: ' ' :: l) = id := by
        funext l
        simp [hpd, List.isPrefixOf]
      rw [this, List.map_id]
    rw [hdrop3]
    have hlastMem : cLast ∈ ((c0 :: l0) :: ls0).getLast hcne := by
      have hmem : cLast ∈ (((c0 :: l0) :: ls0).getLast hcne).getLast? := by
        rw [hLastSome]; rfl
      obtain ⟨h', heq⟩ := List.mem_getLast?_eq_getLast hmem
      rw [heq]
      exact List.getLast_mem h'
    have hlastNotBlank : isBlankLine (((c0 :: l0) :: ls0).getLast hcne) = false := by
      by_contra hcontra
      have hall : (((c0 :: l0) :: ls0).getLast hcne).all jsWs = true := by
        simpa [isBlankLine] using hcontra
      have := List.all_eq_true.mp hall cLast hlastMem
      rw [hLastWs] at this
      exact Bool.false_ne_true this
    have h1 : ((c0 :: l0) :: ls0).dropWhile isBlankLine = (c0 :: l0) :: ls0 := by
      apply dropWhile_eq_self_of_head
      intro l hl'
      cases hl'
      simp [isBlankLine, hc0]
    have h2 : ((c0 :: l0) :: ls0).reverse.dropWhile isBlankLine =
        ((c0 :: l0) :: ls0).reverse := by
      apply dropWhile_eq_self_of_head
      intro l hl'
      rw [List.head?_reverse] at hl'
      rw [List.getLast?_eq_getLast _ hcne] at hl'
      cases hl'
      exact hlastNotBlank
    rw [h1, h2, List.reverse_reverse]

/-- C2 counterexample: in the block `" *   a\n * b"` every line is prefixed
with `" * "`, yet the cleaned code is `"a\nb"` while removing the exact
prefix and trimming surrounding blank lines gives `"  a\nb"`: the final JS
`.trim()` also deletes the extra indentation of the first kept line, so the
round trip is not byte-for-byte. -/
theorem clean_trim_refuted :
    (∀ l ∈ splitNl (" *   a\n * b" : String).data, " * ".data.isPrefixOf l = true) ∧
    cleanExampleCode " *   a\n * b" = "a\nb" ∧
    specCleanRT " *   a\n * b" = "  a\nb" ∧
    cleanExampleCode " *   a\n * b" ≠ specCleanRT " *   a\n * b" := by
  refine ⟨by decide, by decide, by decide, by decide⟩

/-- Witness for the round-trip theorem at a concrete block. -/
theorem clean_example_round_trip_witness :
    cleanExampleCode ⟨joinNl ([['a', ' ', 'b'], ['c']].map (fun l => ' ' :: '*' :: ' ' :: l))⟩ =
      ⟨joinNl [['a', ' ', 'b'], ['c']]⟩ ∧
    specCleanRT ⟨joinNl ([['a', ' ', 'b'], ['c']].map (fun l => ' ' :: '*' :: ' ' :: l))⟩ =
      ⟨joinNl [['a', ' ', 'b'], ['c']]⟩ :=
  clean_example_round_trip [['a', ' ', 'b'], ['c']] (by decide) (by decide) (by decide)

/-! ## `parser.ts` — JSDoc comment extraction -/

/-- The declaration keywords recognized after a comment (and in the export
scanner): `function|const|let|var|class|interface|type|enum`. -/
def declKeywords : List (List Char) :=
  ["function", "const", "let", "var", "class", "interface", "type", "enum"].map String.data

/-- Match a literal token followed by `\s+` (at least one whitespace
character, then greedily all of them); returns the text after the
whitespace run.  Since every token user below is followed in the regexes by
a group starting with a non-whitespace character, the greedy `\s+` needs no
backtracking. -/
def afterTok? (tok : List Char) (cs : List Char) : Option (List Char) :=
  if tok.isPrefixOf cs then
    match cs.drop tok.length with
    | c :: rest => if jsWs c then some ((c :: rest).dropWhile jsWs) else none
    | [] => none
  else none

/-- The owner-name pattern of `extractJSDocComments`, anchored at the start
of the text following a comment:
`/^\s*(?:export\s+)?(?:async\s+)?(?:function|const|let|var|class|interface|type|enum)\s+(\w+)/`.
The optional `export`/`async` groups are taken exactly when the literal
plus at least one whitespace character is present (if taking them fails the
overall match, not taking them fails as well, because no declaration
keyword is a prefix of `export`/`async` text); the keyword alternation is
prefix-free, so at most one keyword applies. -/
def ownerName? (cs : List Char) : Option (List Char) :=
  let t0 := cs.dropWhile jsWs
  let t1 := (afterTok? "export".data t0).getD t0
  let t2 := (afterTok? "async".data t1).getD t1
  match declKeywords.findSome? (fun k => afterTok? k t2) with
  | some rest =>
    let nm := rest.takeWhile wordChar
    if nm.isEmpty then none else some nm
  | none => none

/-- An extracted JSDoc comment: its body, 1-based start line, and the name
of the owning declaration. -/
structure RawComment where
  comment : List Char
  line : Nat
  name : String
deriving DecidableEq, Repr

/-- Worker for `extractJSDocComments`.  The regex `/\/\*\*([\s\S]*?)\*\//g`
is determinized as: find the next `/**`, then the body runs to the first
`*/` after it (the lazy group); if no `*/` follows any later `/**` has no
closing marker either, so the scan stops.  `nl` counts the newlines before
the current suffix, giving the 1-based line numbers. -/
def extractJSDocAux : Nat → Nat → List Char → List RawComment
  | 0, _, _ => []
  | fuel + 1, nl, cs =>
    match findSub "/**".data cs with
    | none => []
    | some (pre, afterOpen) =>
      match findSub "*/".data afterOpen with
      | none => []
      | some (body, afterClose) =>
        let line := nl + pre.count '\n' + 1
        let nl' := nl + pre.count '\n' + ("/**".data ++ body ++ "*/".data).count '\n'
        { comment := body, line := line,
          name := match ownerName? afterClose with
            | some n => ⟨n⟩
            | none => "anonymous_" ++ natDecStr line } :: extractJSDocAux fuel nl' afterClose

/-- `extractJSDocComments` from `parser.ts`. -/
def extractJSDocComments (source : String) : List RawComment :=
  extractJSDocAux source.data.length 0 source.data

/-! ## `parser.ts` — example extraction -/

/-- Validity of the gap between `@example` and the opening fence in
`/@example\s*\n\s*\*?\s*```.../`: the sub-pattern `\s*\n\s*\*?\s*` accepts
exactly the strings made of whitespace plus at most one `*`, with at least
one newline before the `*` (resp. anywhere, when no `*` occurs).  Because
backticks are neither whitespace nor `*`, only the text up to the *first*
following ``` ``` ``` can serve as the gap, so the match is deterministic. -/
def gapOk (g : List Char) : Bool :=
  let u := g.takeWhile jsWs
  match g.dropWhile jsWs with
  | [] => u.contains '\n'
  | '*' :: v => u.contains '\n' && v.all jsWs
  | _ => false

/-- The language tags permitted on the fence, in the regex's alternation
order `(?:ts|typescript|js|javascript)?` (the empty tag last, as the
optional group is greedy). -/
def fenceTags : List (List Char) :=
  ["ts", "typescript", "js", "javascript", ""].map String.data

/-- After the literal ``` ``` ```, consume an optional language tag directly
followed by a newline; returns the text after that newline.  An engine
backtrack from a failing tag alternative is modelled by trying the
alternatives in order and requiring the following `\n` together with the
tag. -/
def afterFence? (cs : List Char) : Option (List Char) :=
  match fenceTags.find? (fun t => (t ++ ['\n']).isPrefixOf cs) with
  | some t => some (cs.drop (t.length + 1))
  | none => none

/-- Pattern-1 scan of
`/@example\s*\n\s*\*?\s*```(?:ts|typescript|js|javascript)?\n([\s\S]*?)```/g`:
for each `@example` occurrence in order, the gap up to the first following
``` ``` ``` must satisfy `gapOk`, the fence line must close with an optional
tag and a newline, and the captured body runs lazily to the next
``` ``` ```.  On failure the engine's next match can only start at the next
`@example` occurrence; after a success it resumes at the end of the match
(`lastIndex`). -/
def scanP1 : Nat → List Char → List (List Char)
  | 0, _ => []
  | fuel + 1, cs =>
    match findSub "@example".data cs with
    | none => []
    | some (_, afterEx) =>
      match findSub "```".data afterEx with
      | none => []
      | some (gap, afterTicks) =>
        if gapOk gap then
          match afterFence? afterTicks with
          | some contentStart =>
            match findSub "```".data contentStart with
            | some (content, afterClose) => content :: scanP1 fuel afterClose
            | none => []
          | none => scanP1 fuel afterEx
        else scanP1 fuel afterEx

/-- One iteration of the repeated group in pattern 2,
`(?:\s*\*\s{2,}[^\n]+\n?)`, applied at `cs`; returns the remainder after the
iteration, or `none` if the iteration cannot match here.  Determinization of
the greedy engine: `\s*` runs to the first non-whitespace, which must be
`*`; then `\s{2,}` greedily takes the whitespace run `r` after the `*`.  If
a non-whitespace character follows `r`, the greedy choice stands and
`[^\n]+\n?` takes the rest of that line plus its newline.  If the input ends
at `r`, the engine backs `\s{2,}` off to the largest `j ≥ 2` with `r[j]` a
non-newline character (which `[^\n]+` then consumes, `r[j+1..]` being all
newlines by maximality of `j`), and `\n?` takes `r[j+1]` when present. -/
def p2Iter? (cs : List Char) : Option (List Char) :=
  match cs.dropWhile jsWs with
  | '*' :: b =>
    let r := b.takeWhile jsWs
    let k := r.length
    let c := b.dropWhile jsWs
    if k < 2 then none
    else
      match c with
      | _ :: _ =>
        let n := c.takeWhile (fun ch => ch ≠ '\n')
        let rest := c.drop n.length
        some (match rest with | '\n' :: t => t | _ => rest)
      | [] =>
        match r.reverse.findIdx? (fun ch => ch ≠ '\n') with
        | some d =>
          let j := k - 1 - d
          if j ≥ 2 then some (r.drop (if j + 1 < k then j + 2 else k))
          else none
        | none => none
  | _ => none

/-- Greedy repetition of `p2Iter?` (the `+` of pattern 2); nothing follows
the group in the regex, so the first greedy parse is the match. -/
def p2Loop : Nat → List Char → List Char
  | 0, cs => cs
  | fuel + 1, cs =>
    match p2Iter? cs with
    | some rest => p2Loop fuel rest
    | none => cs

/-- Pattern-2 scan of `/@example\s*\n((?:\s*\*\s{2,}[^\n]+\n?)+)/g` (the
fallback for unfenced examples).  After `@example`, the maximal whitespace
run must contain a newline; greediness of `\s*\n` places the capture start
after the *last* newline of that run (any earlier choice matches iff the
last does, since the first iteration's own `\s*` absorbs the difference).
The capture is the text consumed by the iterations. -/
def scanP2 : Nat → List Char → List (List Char)
  | 0, _ => []
  | fuel + 1, cs =>
    match findSub "@example".data cs with
    | none => []
    | some (_, afterEx) =>
      let w := afterEx.takeWhile jsWs
      let t := afterEx.drop w.length
      if w.contains '\n' then
        let wAfter := (w.reverse.takeWhile (fun ch => ch ≠ '\n')).reverse
        let start := wAfter ++ t
        match p2Iter? start with
        | some rest1 =>
          let rem := p2Loop start.length rest1
          (start.take (start.length - rem.length)) :: scanP2 fuel rem
        | none => scanP2 fuel afterEx
      else scanP2 fuel afterEx

/-- An extracted (cleaned and annotated) example. -/
structure RawExample where
  code : String
  expectedOutput : Option String
deriving DecidableEq, Repr

/-- Clean a raw block and attach its expectation annotation, as done for
each match in `extractExamples`. -/
def mkRaw (b : List Char) : RawExample :=
  let code := cleanExampleCode ⟨b⟩
  let r := extractExpectedOutput code
  ⟨r.code, r.expected⟩

/-- `extractExamples` from `parser.ts`: all pattern-1 (fenced) matches; only
when there are none, the pattern-2 (indented) matches, discarding those
whose cleaned code is empty. -/
def extractExamples (comment : String) : List RawExample :=
  let cs := comment.data
  match scanP1 cs.length cs with
  | [] =>
    (((scanP2 cs.length cs).filter
      (fun b => cleanExampleCode ⟨b⟩ != "")).map mkRaw)
  | b :: bs => (b :: bs).map mkRaw

/-! ## `parser.ts` — per-file parsing -/

/-- `DocExample` from `parser.ts`. -/
structure DocExample where
  file : String
  line : Nat
  name : String
  code : String
  expectedOutput : Option String
deriving DecidableEq, Repr

/-- The name given to the `i`-th (0-based) of `n` examples of one comment:
`extracted.length > 1 ? `${name}_example${i + 1}` : name`. -/
def exampleName (owner : String) (n i : Nat) : String :=
  if n > 1 then owner ++ "_example" ++ natDecStr (i + 1) else owner

/-- Indexed map mirroring the `for (let i = 0; …)` loop of `parseFile`. -/
def mapWithIdx {α β : Type} (f : Nat → α → β) : Nat → List α → List β
  | _, [] => []
  | i, a :: as => f i a :: mapWithIdx f (i + 1) as

/-- The `DocExample`s produced from one extracted comment by `parseFile`'s
inner loop. -/
def examplesOfComment (filePath : String) (rc : RawComment) : List DocExample :=
  let ex := extractExamples ⟨rc.comment⟩
  mapWithIdx (fun i e =>
    { file := filePath, line := rc.line, name := exampleName rc.name ex.length i,
      code := e.code, expectedOutput := e.expectedOutput }) 0 ex

/-- The example list produced by `parseFile` from a successfully read
source text (the body of its `try` block). -/
def parseFileContent (filePath source : String) : List DocExample :=
  ((extractJSDocComments source).map (examplesOfComment filePath)).flatten

/-! ## C8 — example naming -/

/-- The names assigned to the examples of one comment, in section order. -/
def commentNames (rc : RawComment) : List String :=
  (List.range (extractExamples ⟨rc.comment⟩).length).map
    (exampleName rc.name (extractExamples ⟨rc.comment⟩).length)

theorem mapWithIdx_map {α β γ : Type} (g : β → γ) (f : Nat → α → β) :
    ∀ (i : Nat) (l : List α),
      (mapWithIdx f i l).map g = mapWithIdx (fun j a => g (f j a)) i l := by
  intro i l
  induction l generalizing i with
  | nil => rfl
  | cons a as ih => simp [mapWithIdx, ih]

theorem mapWithIdx_const {α β : Type} (h : Nat → β) :
    ∀ (l : List α) (i : Nat),
      mapWithIdx (fun j _ => h j) i l = (List.range l.length).map (fun j => h (i + j)) := by
  intro l
  induction l with
  | nil => intro i; rfl
  | cons a as ih =>
    intro i
    rw [show mapWithIdx (fun j _ => h j) i (a :: as) =
      h i :: mapWithIdx (fun j _ => h j) (i + 1) as from rfl]
    rw [ih (i + 1), List.length_cons, List.range_succ_eq_map]
    simp only [List.map_cons, List.map_map, Nat.add_zero]
    have hfun : ((fun j => h (i + j)) ∘ Nat.succ) = (fun j => h (i + 1 + j)) := by
      funext j
      simp only [Function.comp_apply]
      congr 1
      omega
    rw [hfun]

theorem exampleName_inj (owner : String) (n : Nat) (hn : n > 1) :
    ∀ i j, exampleName owner n i = exampleName owner n j → i = j := by
  intro i j h
  simp only [exampleName, if_pos hn] at h
  have hdata := congrArg String.data h
  simp only [String.data_append, List.append_assoc] at hdata
  have h1 := List.append_cancel_left hdata
  have h2 := List.append_cancel_left h1
  have := natDecStr_injective (String.ext h2)
  omega

/-- C8 (amended): for every parsed file, a comment yielding `n > 1` examples
names them `<owner>_example1` … `<owner>_examplen` in section order, a
single example keeps the bare owner name, and the names are unique among
the examples of one documentation comment.  (Uniqueness across the whole
file's example list fails, see the counterexample: two comments may share an
owner name.) -/
theorem parse_file_example_names (fp src : String) :
    ((parseFileContent fp src).map DocExample.name) =
      ((extractJSDocComments src).map commentNames).flatten ∧
    ∀ rc : RawComment, (commentNames rc).Nodup := by
  constructor
  · unfold parseFileContent
    rw [List.map_flatten, List.map_map]
    have hpt : (List.map DocExample.name ∘ examplesOfComment fp) = commentNames := by
      funext rc
      show ((examplesOfComment fp rc).map DocExample.name) = commentNames rc
      unfold examplesOfComment commentNames
      rw [mapWithIdx_map]
      rw [show (fun (j : Nat) (e : RawExample) => DocExample.name
          { file := fp, line := rc.line,
            name := exampleName rc.name (extractExamples ⟨rc.comment⟩).length j,
            code := e.code, expectedOutput := e.expectedOutput }) =
        (fun (j : Nat) (_ : RawExample) =>
          exampleName rc.name (extractExamples ⟨rc.comment⟩).length j) from rfl]
      rw [mapWithIdx_const]
      have hz : (fun j => exampleName rc.name (extractExamples ⟨rc.comment⟩).length (0 + j)) =
          exampleName rc.name (extractExamples ⟨rc.comment⟩).length := by
        funext j
        rw [Nat.zero_add]
      rw [hz]
    rw [hpt]
  · intro rc
    unfold commentNames
    by_cases hn : (extractExamples ⟨rc.comment⟩).length > 1
    · exact List.Nodup.map
        (fun a b => exampleName_inj rc.name _ hn a b) (List.nodup_range _)
    · have : (extractExamples ⟨rc.comment⟩).length = 0 ∨
          (extractExamples ⟨rc.comment⟩).length = 1 := by omega
      rcases this with h0 | h1
      · rw [h0]
        simp [List.range_zero]
      · rw [h1]
        rw [show List.range 1 = [0] from rfl]
        simp

/-- Source text with two identically-named owners, each documented with one
example: both resulting `DocExample`s are named `foo`. -/
def c8src : String :=
  "/**\n * @example\n * ```\n * foo()\n * ```\n */\nfunction foo() \x7b\x7d\n/**\n * @example\n * ```\n * foo()\n * ```\n */\nfunction foo() \x7b\x7d\n"

set_option maxRecDepth 4000 in
/-- C8 counterexample: the `name` field is *not* unique within one file's
example list — two documentation comments owned by equally named
declarations produce two examples both called `foo`. -/
theorem parse_names_unique_refuted :
    ((parseFileContent "f.ts" c8src).map DocExample.name) = ["foo", "foo"] ∧
    ¬ ((parseFileContent "f.ts" c8src).map DocExample.name).Nodup := by
  have h1 : ((parseFileContent "f.ts" c8src).map DocExample.name) = ["foo", "foo"] := by
    decide
  exact ⟨h1, by rw [h1]; decide⟩

/-! ## `parser.ts` — multi-file parsing over an abstract file system -/

/-- Abstract file-system model for `fs` as used by `parser.ts`:
* `statDir? p = none` models `fs.statSync(p)` throwing (e.g. nonexistent
  path); `some b` models success with `stats.isDirectory() = b`;
* `readFile? p = .error m` models `fs.readFileSync(p, "utf-8")` throwing an
  error whose string rendering (the `${err}` interpolation) is `m`; `.ok s`
  models a successful read of contents `s`;
* `readDir d` models `fs.readdirSync(d, { withFileTypes: true })`, as a list
  of `(name, isDirectory)` pairs (directories are assumed readable, and
  every non-directory entry is treated as a plain file). -/
structure FsModel where
  statDir? : String → Option Bool
  readFile? : String → Except String String
  readDir : String → List (String × Bool)

/-- `ParseResult` from `parser.ts`. -/
structure ParseResultM where
  examples : List DocExample
  errors : List String
deriving DecidableEq, Repr

/-- `parseFile` from `parser.ts`: a read failure is caught and recorded as a
diagnostic string; otherwise the file's comments are parsed. -/
def parseFile (fs : FsModel) (filePath : String) : ParseResultM :=
  match fs.readFile? filePath with
  | .ok source => { examples := parseFileContent filePath source, errors := [] }
  | .error m => { examples := [], errors := ["Failed to parse " ++ filePath ++ ": " ++ m] }

/-- The extension filter `/\.(ts|tsx|js|jsx|mts|mjs)$/` of
`findSourceFiles`. -/
def isSourceFile (name : String) : Bool :=
  [".ts", ".tsx", ".js", ".jsx", ".mts", ".mjs"].any
    (fun suf => suf.data.isSuffixOf name.data)

/-- `findSourceFiles` from `parser.ts`, with explicit recursion fuel for the
directory walk (`path.join` is modelled as `/`-concatenation). -/
def findSourceFiles (fs : FsModel) : Nat → String → List String
  | 0, _ => []
  | fuel + 1, dir =>
    ((fs.readDir dir).map (fun e =>
      let fullPath := dir ++ "/" ++ e.1
      if e.2 && !(e.1.startsWith ".") && e.1 != "node_modules" then
        findSourceFiles fs fuel fullPath
      else if !e.2 && isSourceFile e.1 then [fullPath]
      else [])).flatten

/-- `parseFiles` from `parser.ts`.  `fs.statSync` runs *outside* any `try`,
so a failing stat aborts the whole run with the thrown exception (modelled
as `Except.error`); per-file read failures are caught inside `parseFile`
and accumulated.  The statSync exception is modelled by the string
`"statSync failed: " ++ p`. -/
def parseFiles (fs : FsModel) (fuel : Nat) : List String → Except String ParseResultM
  | [] => .ok ⟨[], []⟩
  | p :: rest =>
    match fs.statDir? p with
    | none => .error ("statSync failed: " ++ p)
    | some true =>
      let sub := (findSourceFiles fs fuel p).map (parseFile fs)
      (parseFiles fs fuel rest).map (fun r =>
        ⟨(sub.map ParseResultM.examples).flatten ++ r.examples,
         (sub.map ParseResultM.errors).flatten ++ r.errors⟩)
    | some false =>
      (parseFiles fs fuel rest).map (fun r =>
        ⟨(parseFile fs p).examples ++ r.examples,
         (parseFile fs p).errors ++ r.errors⟩)

/-! ## C9 — stat failures abort, read failures are recorded -/

/-- C9: (i) a path whose stat throws makes `parseFiles` propagate the
exception (no `ParseResult` is produced, parsing of all remaining paths is
aborted); (ii) a path that stats as a plain file but fails to read only
contributes a diagnostic string, and the remaining paths are still
processed. -/
theorem parse_files_stat_aborts_read_records :
    (∀ (fs : FsModel) (fuel : Nat) (ps₁ : List String) (p : String) (ps₂ : List String),
      (∀ q ∈ ps₁, (fs.statDir? q).isSome) → fs.statDir? p = none →
      parseFiles fs fuel (ps₁ ++ p :: ps₂) = .error ("statSync failed: " ++ p)) ∧
    (∀ (fs : FsModel) (fuel : Nat) (p : String) (rest : List String) (m : String),
      fs.statDir? p = some false → fs.readFile? p = .error m →
      parseFiles fs fuel (p :: rest) = (parseFiles fs fuel rest).map
        (fun r => ⟨r.examples, ("Failed to parse " ++ p ++ ": " ++ m) :: r.errors⟩)) := by
  constructor
  · intro fs fuel ps₁ p ps₂ hok hfail
    induction ps₁ with
    | nil =>
      show parseFiles fs fuel (p :: ps₂) = _
      unfold parseFiles
      rw [hfail]
    | cons q ps₁' ih =>
      have hq := hok q (List.mem_cons_self _ _)
      have ih' := ih (fun x hx => hok x (List.mem_cons_of_mem _ hx))
      show parseFiles fs fuel (q :: (ps₁' ++ p :: ps₂)) = _
      unfold parseFiles
      cases hstat : fs.statDir? q with
      | none => rw [hstat] at hq; simp at hq
      | some b =>
        cases b <;> simp only [ih', Except.map]
  · intro fs fuel p rest m hstat hread
    have hpf : parseFile fs p =
        ⟨[], ["Failed to parse " ++ p ++ ": " ++ m]⟩ := by
      unfold parseFile
      rw [hread]
    simp only [parseFiles, hstat, hpf]
    cases hr : parseFiles fs fuel rest <;> simp [Except.map]

/-- Concrete file system used to witness C9. -/
def fsW : FsModel where
  statDir? := fun p => if p = "bad" then none else some false
  readFile? := fun p => if p = "unreadable.ts" then .error "Error: EACCES" else .ok ""
  readDir := fun _ => []

/-- Witness for C9 at a concrete file-system model. -/
theorem parse_files_stat_aborts_read_records_witness :
    parseFiles fsW 0 (["ok.ts"] ++ "bad" :: ["after.ts"]) =
      .error ("statSync failed: " ++ "bad") ∧
    parseFiles fsW 0 ("unreadable.ts" :: ["ok.ts"]) = (parseFiles fsW 0 ["ok.ts"]).map
      (fun r => ⟨r.examples,
        ("Failed to parse " ++ "unreadable.ts" ++ ": " ++ "Error: EACCES") :: r.errors⟩) := by
  constructor
  · exact parse_files_stat_aborts_read_records.1 fsW 0 ["ok.ts"] "bad" ["after.ts"]
      (by intro q hq; fin_cases hq; decide) (by decide)
  · exact parse_files_stat_aborts_read_records.2 fsW 0 "unreadable.ts" ["ok.ts"]
      "Error: EACCES" (by decide) (by rfl)

/-! ## `runner.ts` — POSIX path model -/

/-- Path normalization: drop empty and `.` segments, pop one segment per
`..` (staying at the root when there is nothing to pop), as Node's POSIX
path resolution does. -/
def normSegs (segs : List String) : List String :=
  segs.foldl (fun acc s =>
    if s = "" || s = "." then acc
    else if s = ".." then acc.dropLast
    else acc ++ [s]) []

/-- `path.resolve(base, rel)` for an absolute POSIX `base` (`base` stands
for `process.cwd()` when the one-argument `path.resolve(p)` is modelled). -/
def pathResolve (base rel : String) : String :=
  let p := if rel.data.head? = some '/' then rel else base ++ "/" ++ rel
  "/" ++ String.intercalate "/" (normSegs (p.splitOn "/"))

/-- `path.dirname` on a normalized absolute path. -/
def pathDirname (p : String) : String :=
  let segs := (normSegs (p.splitOn "/")).dropLast
  if segs.isEmpty then "/" else "/" ++ String.intercalate "/" segs

/-- `path.dirname(path.resolve(sourceFile))` as computed by
`extractImports`. -/
def sourceDirOf (cwd sourceFile : String) : String :=
  pathDirname (pathResolve cwd sourceFile)

/-- `.replace(/\\/g, "/")`. -/
def slashify (s : String) : String :=
  ⟨s.data.map (fun c => if c = '\\' then '/' else c)⟩

/-! ## `runner.ts` — import separation -/

/-- A quote character, the class `['"]`. -/
def isQuote (c : Char) : Bool := c = '"' || c = '\''

/-- The three captured groups and the remainder of a match of
`/(from\s+['"])(\.[^'"]+)(['"])/` at the head of the input. -/
structure FromParts where
  pre : List Char
  rel : List Char
  quo : Char
  rest : List Char

/-- The part of the `from`-rewrite pattern after the literal `from`:
`\s+['"]\.[^'"]+['"]` (with the groups of `matchFromAt`), applied to `u`,
the text following `from`.  Greedy `\s+` requires at least one whitespace
character and then runs to the first non-whitespace (`u.dropWhile jsWs`),
which must be a quote; the captured target is `.` plus the maximal non-empty
run of non-quote characters, closed by a quote character. -/
def matchFromTail : List Char → Option FromParts
  | [] => none
  | c0 :: u' =>
    if jsWs c0 then
      match (c0 :: u').dropWhile jsWs with
      | q :: v =>
        if isQuote q then
          match v with
          | '.' :: v2 =>
            let body := v2.takeWhile (fun c => !isQuote c)
            if body.isEmpty then none
            else
              match v2.drop body.length with
              | q2 :: rest2 =>
                some ⟨"from".data ++ (c0 :: u').takeWhile jsWs ++ [q],
                  '.' :: body, q2, rest2⟩
              | [] => none
          | _ => none
        else none
      | [] => none
    else none

/-- Attempt of `/(from\s+['"])(\.[^'"]+)(['"])/` at the head of `cs`.
Deterministic: no shorter choice of the greedy `\s+` can succeed, because
it would put a whitespace character where the quote class is required. -/
def matchFromAt (cs : List Char) : Option FromParts :=
  if "from".data.isPrefixOf cs then matchFromTail (cs.drop 4) else none

/-- The global replace
`line.replace(/(from\s+['"])(\.[^'"]+)(['"]) /g, prefix + resolved + suffix)`
(resolving the captured relative target against `dir`), with explicit fuel
decreasing once per scanned character. -/
def replFromAux (dir : String) : Nat → List Char → List Char
  | 0, cs => cs
  | _ + 1, [] => []
  | fuel + 1, c :: cs =>
    match matchFromAt (c :: cs) with
    | some f =>
      f.pre ++ (slashify (pathResolve dir ⟨f.rel⟩)).data ++
        f.quo :: replFromAux dir fuel f.rest
    | none => c :: replFromAux dir fuel cs

/-- The relative-import resolution applied to one import line. -/
def replFrom (dir : String) (line : List Char) : List Char :=
  replFromAux dir line.length line

/-- The import-line test `/^\s*import\s+/`. -/
def isImportLine (line : List Char) : Bool :=
  let t := line.dropWhile jsWs
  "import".data.isPrefixOf t &&
    (match t.drop 6 with
     | c :: _ => jsWs c
     | [] => false)

/-- Result of `extractImports`. -/
structure ImportsSplit where
  imports : List String
  rest : List String
deriving DecidableEq, Repr

/-- The loop of `extractImports`: import lines (with relative targets
resolved) and the remaining lines, each in input order. -/
def extractImportsAux (dir : String) : List (List Char) → ImportsSplit
  | [] => ⟨[], []⟩
  | l :: ls =>
    let r := extractImportsAux dir ls
    if isImportLine l then ⟨(⟨replFrom dir l⟩ : String) :: r.imports, r.rest⟩
    else ⟨r.imports, (⟨l⟩ : String) :: r.rest⟩

/-- `extractImports` from `runner.ts` (`cwd` models `process.cwd()`, used
by `path.resolve` on a relative `sourceFile`). -/
def extractImports (code sourceFile cwd : String) : ImportsSplit :=
  extractImportsAux (sourceDirOf cwd sourceFile) (splitNl code.data)

/-! ## `runner.ts` — export resolution -/

/-- Attempt of the declaration-export regex
`/export\s+(?:async\s+)?(?:function|const|let|var|class|interface|type|enum)\s+(\w+)/`
at the head of `cs`; returns the captured name and the text after the
match.  Determinism mirrors `ownerName?`: optional `async\s+` is taken
exactly when present (no keyword starts with `async`), the keyword
alternation is prefix-free, and each greedy `\s+` ends at the following
non-whitespace token. -/
def matchDeclAt (cs : List Char) : Option (List Char × List Char) :=
  match afterTok? "export".data cs with
  | none => none
  | some t1 =>
    let t2 := (afterTok? "async".data t1).getD t1
    match declKeywords.findSome? (fun k => afterTok? k t2) with
    | some rest =>
      let nm := rest.takeWhile wordChar
      if nm.isEmpty then none else some (nm, rest.drop nm.length)
    | none => none

/-- Global scan collecting the declaration-export names in file order. -/
def scanDecl : Nat → List Char → List (List Char)
  | 0, _ => []
  | _ + 1, [] => []
  | fuel + 1, c :: cs =>
    match matchDeclAt (c :: cs) with
    | some (nm, rest) => nm :: scanDecl fuel rest
    | none => scanDecl fuel cs

/-- Attempt of the batch-export regex `/export\s*\{([^}]+)\}/` at the head
of `cs`; returns the (non-empty) brace contents and the remainder. -/
def matchNamedAt (cs : List Char) : Option (List Char × List Char) :=
  if "export".data.isPrefixOf cs then
    match (cs.drop 6).dropWhile jsWs with
    | '\x7b' :: u =>
      let inner := u.takeWhile (fun c => c ≠ '\x7d')
      if inner.isEmpty then none
      else
        match u.drop inner.length with
        | '\x7d' :: rest => some (inner, rest)
        | _ => none
    | _ => none
  else none

/-- Does `/\s+as\s+/` match at the head of `cs`? -/
def matchAsAt (cs : List Char) : Bool :=
  let w := cs.takeWhile jsWs
  if w.isEmpty then false
  else
    match cs.drop w.length with
    | 'a' :: 's' :: r =>
      (match r with
       | c :: _ => jsWs c
       | [] => false)
    | _ => false

/-- `e.split(/\s+as\s+/)[0]`: the prefix before the leftmost match of
`\s+as\s+` (the whole string when there is none). -/
def beforeAs : List Char → List Char
  | [] => []
  | c :: cs => if matchAsAt (c :: cs) then [] else c :: beforeAs cs

/-- One batch-list entry: `e.trim().split(/\s+as\s+/)[0].trim()`. -/
def entryName (e : List Char) : List Char := trimJS (beforeAs (trimJS e))

/-- The names contributed by one batch export list:
split on `","`, take each entry's pre-alias name, and drop empty names and
wildcard entries. -/
def namedEntries (inner : List Char) : List (List Char) :=
  ((splitOnChar ',' inner).map entryName).filter
    (fun n => !n.isEmpty && !n.contains '*')

/-- Global scan collecting the batch-export entry names in file order. -/
def scanNamed : Nat → List Char → List (List Char)
  | 0, _ => []
  | _ + 1, [] => []
  | fuel + 1, c :: cs =>
    match matchNamedAt (c :: cs) with
    | some (inner, rest) => namedEntries inner ++ scanNamed fuel rest
    | none => scanNamed fuel cs

/-- `[...new Set(names)]`: deduplication keeping first occurrences. -/
def dedupAux (seen : List String) : List String → List String
  | [] => []
  | x :: xs => if x ∈ seen then dedupAux seen xs else x :: dedupAux (x :: seen) xs

/-- `getExportNames` from `runner.ts` over the origin file's contents
(`none` models an unreadable file, whose exception is caught).  The
declaration-form pass runs over the whole file before the batch-form pass,
and the combined name list is deduplicated keeping first occurrences. -/
def getExportNames (content : Option String) : List String :=
  match content with
  | none => []
  | some c =>
    dedupAux []
      ((scanDecl c.data.length c.data).map (fun n => (⟨n⟩ : String)) ++
       (scanNamed c.data.length c.data).map (fun n => (⟨n⟩ : String)))

/-! ## `runner.ts` — unit synthesis -/

/-- The destructuring statement of `wrapExampleCode`:
`const { <names> } = _module;`, or the empty string for an empty export
set. -/
def exportDestructure (names : List String) : String :=
  if names.length > 0 then
    "const \x7b " ++ strJoin ", " names ++ " \x7d = _module;"
  else ""

/-- `wrapExampleCode` from `runner.ts`: the synthesized program text.
`originContent` is the origin file's contents as read by `getExportNames`
(`none` = unreadable), `cwd` models `process.cwd()`. -/
def wrapExampleCode (ex : DocExample) (originContent : Option String) (cwd : String) :
    String :=
  let importPath := slashify (pathResolve cwd ex.file)
  let imps := extractImports ex.code ex.file cwd
  let exportNames := getExportNames originContent
  "\n// Auto-generated test for: " ++ ex.name ++ "\n// From: " ++ ex.file ++ ":" ++
    natDecStr ex.line ++
    "\n\n// Import everything from the source file\nimport * as _module from \"" ++
    importPath ++ "\";\n\n// User imports from example\n" ++
    strJoin "\n" imps.imports ++
    "\n\n// Make all exports available as globals for convenience\n" ++
    exportDestructure exportNames ++
    "\n\n// Simple assertion helper\nfunction assert(condition: boolean, message?: string): void \x7b\n  if (!condition) \x7b\n    throw new Error(message ?? \"Assertion failed\");\n  \x7d\n\x7d\n\nfunction assertEqual<T>(actual: T, expected: T, message?: string): void \x7b\n  if (actual !== expected) \x7b\n    throw new Error(\n      message ?? `Expected $\x7bJSON.stringify(expected)\x7d, got $\x7bJSON.stringify(actual)\x7d`\n    );\n  \x7d\n\x7d\n\n// Run the example\nasync function __runExample() \x7b\n" ++
    strJoin "\n" (imps.rest.map (fun l => "  " ++ l)) ++
    "\n\x7d\n\n__runExample().catch((err) => \x7b\n  console.error(err);\n  process.exit(1);\n\x7d);\n"

/-! ## `runner.ts` — isolated execution -/

/-- Outcome reported by the spawned subprocess:
`closed code out err` models the `close` event with exit code `code`
(`none` = killed by timeout or signal) and the accumulated stdout/stderr;
`spawnFailed out msg` models the `error` event (spawn failure), after which
`executeWithTsx` reports exit code 1 and `err.message` as stderr. -/
inductive SpawnOutcome where
  | closed (code : Option Int) (stdout stderr : String)
  | spawnFailed (stdout : String) (msg : String)
deriving DecidableEq, Repr

/-- The structured result of `executeWithTsx`. -/
structure ExecResult where
  exitCode : Int
  stdout : String
  stderr : String
deriving DecidableEq, Repr

/-- `executeWithTsx` from `runner.ts`: on `close`, a `null` exit code is
normalized with `code ?? 1`; on a spawn `error`, the promise resolves with
exit code 1. -/
def executeWithTsx : SpawnOutcome → ExecResult
  | .closed code out err => ⟨code.getD 1, out, err⟩
  | .spawnFailed out msg => ⟨1, out, msg⟩

/-- `TestResult` from `runner.ts` (`duration` is wall-clock timing, not
modelled: always 0 here). -/
structure TestResult where
  ex : DocExample
  passed : Bool
  error : Option String
  output : Option String
  duration : Nat
deriving DecidableEq, Repr

/-- File-system effects of one `runExample` attempt, in order. -/
inductive FsEvent where
  | mkdirTemp (dir : String)
  | writeTemp (dir : String) (contents : String)
  | execTemp (dir : String)
  | rmTemp (dir : String) (ok : Bool)
deriving DecidableEq, Repr

/-- `runExample` from `runner.ts`, as a function of the non-deterministic
environment: `writeErr` is `some m` when `fs.writeFileSync` throws with
message `m` (caught by the `catch` branch), `outcome` is the subprocess
outcome, and `rmOk` tells whether the `finally`-block `fs.rmSync` succeeds
(its failure is swallowed).  Returns the `TestResult` together with the
ordered file-system events of the attempt. -/
def runExample (ex : DocExample) (originContent : Option String)
    (cwd tempDir : String) (writeErr : Option String) (outcome : SpawnOutcome)
    (rmOk : Bool) : TestResult × List FsEvent :=
  let wrapped := wrapExampleCode ex originContent cwd
  match writeErr with
  | some m =>
    (⟨ex, false, some m, none, 0⟩,
     [.mkdirTemp tempDir, .writeTemp tempDir wrapped, .rmTemp tempDir rmOk])
  | none =>
    let r := executeWithTsx outcome
    (⟨ex, r.exitCode == 0,
      if r.exitCode != 0 then some (if r.stderr != "" then r.stderr else r.stdout)
      else none,
      some r.stdout, 0⟩,
     [.mkdirTemp tempDir, .writeTemp tempDir wrapped, .execTemp tempDir,
      .rmTemp tempDir rmOk])

/-! ## C6 — pass iff exit code zero -/

/-- C6: for an executed example (the write succeeded and a subprocess
outcome was observed), `passed = true` iff the subprocess reported exit code
`0`; a `null` exit code (timeout kill or signal) is normalized to the
non-zero code `1`, so such an example always fails. -/
theorem run_example_passed_iff_exit_zero (ex : DocExample) (oc : Option String)
    (cwd td : String) (rm : Bool) :
    (∀ (code : Option Int) (out err : String),
      ((runExample ex oc cwd td none (.closed code out err) rm).1.passed = true ↔
        code = some 0)) ∧
    (∀ (out err : String),
      (runExample ex oc cwd td none (.closed none out err) rm).1.passed = false) ∧
    (∀ (out err : String), (executeWithTsx (.closed none out err)).exitCode = 1) := by
  refine ⟨?_, ?_, ?_⟩
  · intro code out err
    cases code with
    | none => simp [runExample, executeWithTsx]
    | some k => simp [runExample, executeWithTsx]
  · intro out err
    simp [runExample, executeWithTsx]
  · intro out err
    rfl

/-! ## C7 — cleanup on every path -/

/-- C7: on every path of one execution attempt — write failure, subprocess
close (any exit code, including the normalized timeout/signal kill), or
spawn error — the last file-system action of the attempt is the removal of
the per-example temporary directory, and whether that removal succeeds or
fails does not change the returned `TestResult`. -/
theorem run_example_cleanup (ex : DocExample) (oc : Option String)
    (cwd td : String) (we : Option String) (outcome : SpawnOutcome) (rm : Bool) :
    (runExample ex oc cwd td we outcome true).1 =
      (runExample ex oc cwd td we outcome false).1 ∧
    (runExample ex oc cwd td we outcome rm).2.getLast? = some (.rmTemp td rm) := by
  refine ⟨?_, ?_⟩ <;> cases we <;> rfl

/-! ## C4 — ordering of the synthesized unit -/

/-- The namespace import line of the synthesized unit. -/
def nsImportText (importPath : String) : String :=
  "import * as _module from \"" ++ importPath ++ "\";"

/-- The two assertion primitive definitions of the synthesized unit. -/
def assertDefsText : String :=
  "function assert(condition: boolean, message?: string): void \x7b\n  if (!condition) \x7b\n    throw new Error(message ?? \"Assertion failed\");\n  \x7d\n\x7d\n\nfunction assertEqual<T>(actual: T, expected: T, message?: string): void \x7b\n  if (actual !== expected) \x7b\n    throw new Error(\n      message ?? `Expected $\x7bJSON.stringify(expected)\x7d, got $\x7bJSON.stringify(actual)\x7d`\n    );\n  \x7d\n\x7d"

/-- The async wrapper around the remaining example lines. -/
def wrapBodyText (rest : List String) : String :=
  "async function __runExample() \x7b\n" ++
    strJoin "\n" (rest.map (fun l => "  " ++ l)) ++ "\n\x7d"

/-- The immediate invocation with rejection handler (prints the error,
exits non-zero). -/
def trailerText : String :=
  "\n\n__runExample().catch((err) => \x7b\n  console.error(err);\n  process.exit(1);\n\x7d);\n"

set_option maxRecDepth 8000 in
/-- C4: the synthesized program text decomposes, in this order, into the
origin-module namespace import, the user's resolved import lines (in
original order), the export destructuring statement, the `assert` /
`assertEqual` definitions, the remaining example lines wrapped in the async
routine, and the invocation-with-failure-propagation trailer; and the
destructuring statement is non-empty exactly when the resolved export set
is non-empty. -/
theorem wrap_example_ordering (ex : DocExample) (oc : Option String) (cwd : String) :
    (∃ p₀ p₁ p₂ p₃ p₄,
      wrapExampleCode ex oc cwd =
        p₀ ++ nsImportText (slashify (pathResolve cwd ex.file)) ++
        p₁ ++ strJoin "\n" (extractImports ex.code ex.file cwd).imports ++
        p₂ ++ exportDestructure (getExportNames oc) ++
        p₃ ++ assertDefsText ++
        p₄ ++ wrapBodyText (extractImports ex.code ex.file cwd).rest ++
        trailerText) ∧
    (exportDestructure (getExportNames oc) ≠ "" ↔ getExportNames oc ≠ []) := by
  constructor
  · refine ⟨"\n// Auto-generated test for: " ++ ex.name ++ "\n// From: " ++ ex.file ++
      ":" ++ natDecStr ex.line ++ "\n\n// Import everything from the source file\n",
      "\n\n// User imports from example\n",
      "\n\n// Make all exports available as globals for convenience\n",
      "\n\n// Simple assertion helper\n",
      "\n\n// Run the example\n", ?_⟩
    have e1 : ("\n\n// Import everything from the source file\nimport * as _module from \"" :
        String) =
      "\n\n// Import everything from the source file\n" ++ "import * as _module from \"" := by
      decide
    have e2 : ("\";\n\n// User imports from example\n" : String) =
      "\";" ++ "\n\n// User imports from example\n" := by decide
    have e3 : ("\n\n// Simple assertion helper\nfunction assert(condition: boolean, message?: string): void \x7b\n  if (!condition) \x7b\n    throw new Error(message ?? \"Assertion failed\");\n  \x7d\n\x7d\n\nfunction assertEqual<T>(actual: T, expected: T, message?: string): void \x7b\n  if (actual !== expected) \x7b\n    throw new Error(\n      message ?? `Expected $\x7bJSON.stringify(expected)\x7d, got $\x7bJSON.stringify(actual)\x7d`\n    );\n  \x7d\n\x7d\n\n// Run the example\nasync function __runExample() \x7b\n" : String) =
      "\n\n// Simple assertion helper\n" ++ assertDefsText ++ "\n\n// Run the example\n" ++
        "async function __runExample() \x7b\n" := by decide
    have e4 : ("\n\x7d\n\n__runExample().catch((err) => \x7b\n  console.error(err);\n  process.exit(1);\n\x7d);\n" : String) =
      "\n\x7d" ++ trailerText := by decide
    simp only [wrapExampleCode]
    rw [e1, e2, e3, e4]
    simp only [nsImportText, wrapBodyText, String.append_assoc]
  · cases hn : getExportNames oc with
    | nil => simp [exportDestructure]
    | cons x xs =>
      constructor
      · intro _; simp
      · intro _
        simp only [exportDestructure, List.length_cons, if_pos (by omega : xs.length + 1 > 0)]
        intro hcontra
        have := congrArg String.data hcontra
        simp [String.data_append] at this

/-! ## C10 — two-space body indentation -/

theorem extractImportsAux_eq (dir : String) : ∀ ls, extractImportsAux dir ls =
    ⟨(ls.filter isImportLine).map (fun l => (⟨replFrom dir l⟩ : String)),
     (ls.filter (fun l => !isImportLine l)).map (fun l => (⟨l⟩ : String))⟩ := by
  intro ls
  induction ls with
  | nil => rfl
  | cons l t ih =>
    simp only [extractImportsAux, ih, List.filter_cons]
    by_cases h : isImportLine l = true
    · simp [h]
    · simp [h]

theorem splitOnChar_sep_not_mem (sep : Char) : ∀ cs, ∀ l ∈ splitOnChar sep cs, sep ∉ l := by
  intro cs
  induction cs with
  | nil =>
    intro l hl
    simp [splitOnChar] at hl
    simp [hl]
  | cons c rest ih =>
    intro l hl
    simp only [splitOnChar] at hl
    split at hl
    · rcases List.mem_cons.mp hl with h | h
      · simp [h]
      · exact ih l h
    · next hc =>
      cases hsp : splitOnChar sep rest with
      | nil => exact absurd hsp (splitOnChar_ne_nil sep rest)
      | cons a as =>
        rw [hsp] at hl
        rcases List.mem_cons.mp hl with h | h
        · subst h
          intro hmem
          rcases List.mem_cons.mp hmem with h' | h'
          · exact hc h'.symm
          · exact ih a (by rw [hsp]; exact List.mem_cons_self _ _) h'
        · exact ih l (by rw [hsp]; exact List.mem_cons_of_mem _ h)

theorem countNl_joinNl : ∀ ls : List (List Char), ls ≠ [] → (∀ l ∈ ls, '\n' ∉ l) →
    (joinNl ls).count '\n' = ls.length - 1 := by
  intro ls
  induction ls with
  | nil => intro h; exact absurd rfl h
  | cons l t ih =>
    intro _ hno
    cases t with
    | nil =>
      show (joinNl [l]).count '\n' = 0
      exact List.count_eq_zero.mpr (hno l (List.mem_cons_self _ _))
    | cons l' t' =>
      rw [joinNl_cons _ _ (by simp), List.count_append]
      have hrec := ih (by simp) (fun x hx => hno x (List.mem_cons_of_mem _ hx))
      have hl0 : l.count '\n' = 0 :=
        List.count_eq_zero.mpr (hno l (List.mem_cons_self _ _))
      rw [hl0, List.count_cons_self, hrec]
      simp

theorem joinNl_map_prepend_length (pp : List Char) :
    ∀ ls : List (List Char),
      (joinNl (ls.map (fun l => pp ++ l))).length =
        (joinNl ls).length + pp.length * ls.length := by
  intro ls
  induction ls with
  | nil => simp [joinNl]
  | cons l t ih =>
    cases t with
    | nil =>
      show (pp ++ l).length = l.length + pp.length * 1
      simp [List.length_append]
      omega
    | cons l' t' =>
      rw [List.map_cons, joinNl_cons _ _ (by simp), joinNl_cons _ _ (by simp)]
      simp only [List.length_append, List.length_cons]
      rw [ih]
      simp only [List.length_cons]
      ring

theorem joinSep_nl_eq_joinNl : ∀ ls : List (List Char), joinSep ['\n'] ls = joinNl ls := by
  intro ls
  induction ls with
  | nil => rfl
  | cons l t ih =>
    cases t with
    | nil => rfl
    | cons l' t' =>
      show l ++ ['\n'] ++ joinSep ['\n'] (l' :: t') = l ++ '\n' :: joinNl (l' :: t')
      rw [ih]
      simp

/-- C10: the synthesized unit's body region is the example's non-import
lines each with exactly two spaces prepended (so interior lines of
multi-line constructs are shifted by two spaces), and that body region is
never byte-identical to the example code. -/
theorem wrap_body_two_space_indent (ex : DocExample) (oc : Option String) (cwd : String) :
    (∃ pre post, wrapExampleCode ex oc cwd =
      pre ++ strJoin "\n"
        ((extractImports ex.code ex.file cwd).rest.map (fun l => "  " ++ l)) ++ post) ∧
    strJoin "\n" ((extractImports ex.code ex.file cwd).rest.map (fun l => "  " ++ l)) ≠
      ex.code := by
  constructor
  · refine ⟨"\n// Auto-generated test for: " ++ ex.name ++ "\n// From: " ++ ex.file ++
      ":" ++ natDecStr ex.line ++
      "\n\n// Import everything from the source file\nimport * as _module from \"" ++
      slashify (pathResolve cwd ex.file) ++ "\";\n\n// User imports from example\n" ++
      strJoin "\n" (extractImports ex.code ex.file cwd).imports ++
      "\n\n// Make all exports available as globals for convenience\n" ++
      exportDestructure (getExportNames oc) ++
      "\n\n// Simple assertion helper\nfunction assert(condition: boolean, message?: string): void \x7b\n  if (!condition) \x7b\n    throw new Error(message ?? \"Assertion failed\");\n  \x7d\n\x7d\n\nfunction assertEqual<T>(actual: T, expected: T, message?: string): void \x7b\n  if (actual !== expected) \x7b\n    throw new Error(\n      message ?? `Expected $\x7bJSON.stringify(expected)\x7d, got $\x7bJSON.stringify(actual)\x7d`\n    );\n  \x7d\n\x7d\n\n// Run the example\nasync function __runExample() \x7b\n",
      "\n\x7d\n\n__runExample().catch((err) => \x7b\n  console.error(err);\n  process.exit(1);\n\x7d);\n", ?_⟩
    simp only [wrapExampleCode, String.append_assoc]
  · intro hcontra
    have hdata := congrArg String.data hcontra
    have hlines0 : (extractImports ex.code ex.file cwd).rest =
        ((splitNl ex.code.data).filter (fun l => !isImportLine l)).map
          (fun l => (⟨l⟩ : String)) := by
      show (extractImportsAux _ _).rest = _
      rw [extractImportsAux_eq]
    set lines := splitNl ex.code.data with hlinesDef
    have hlinesNe : lines ≠ [] := splitOnChar_ne_nil '\n' ex.code.data
    have hlinesNoNl : ∀ l ∈ lines, '\n' ∉ l := splitOnChar_sep_not_mem '\n' ex.code.data
    have hcode : joinNl lines = ex.code.data := joinNl_splitNl ex.code.data
    set rest := lines.filter (fun l => !isImportLine l) with hrestDef
    have hrestNoNl : ∀ l ∈ rest, '\n' ∉ l := fun l hl =>
      hlinesNoNl l (List.mem_of_mem_filter hl)
    -- the body's character list
    have hbody : (strJoin "\n"
        ((extractImports ex.code ex.file cwd).rest.map (fun l => "  " ++ l))).data =
        joinNl (rest.map (fun l => ' ' :: ' ' :: l)) := by
      rw [hlines0]
      show joinSep ("\n".data) _ = _
      rw [show ("\n" : String).data = ['\n'] from rfl, joinSep_nl_eq_joinNl]
      congr 1
      rw [List.map_map, List.map_map]
      apply List.map_congr_left
      intro l _
      show ("  " ++ (⟨l⟩ : String)).data = ' ' :: ' ' :: l
      rw [String.data_append]
      rfl
    rw [hbody] at hdata
    by_cases hall : ∀ l ∈ lines, (!isImportLine l) = true
    · -- no import lines: the body keeps every line, each two characters longer
      have hfe : rest = lines := by
        rw [hrestDef]
        exact List.filter_eq_self.mpr hall
      have hlen := congrArg List.length hdata
      have hmapeq : rest.map (fun l => ' ' :: ' ' :: l) =
          lines.map (fun l => [' ', ' '] ++ l) := by rw [hfe]; rfl
      rw [hmapeq, joinNl_map_prepend_length [' ', ' '] lines, hcode] at hlen
      simp only [List.length_cons, List.length_nil] at hlen
      have hz : lines.length = 0 := by omega
      exact hlinesNe (List.length_eq_zero.mp hz)
    · -- some import line: the body has strictly fewer newlines
      push_neg at hall
      obtain ⟨bad, hbadMem, hbadImp⟩ := hall
      have hrestLt : rest.length < lines.length := by
        rw [hrestDef]
        exact List.length_filter_lt_length_iff_exists.mpr
          ⟨bad, hbadMem, by simpa using hbadImp⟩
      have hcount := congrArg (List.count '\n') hdata
      by_cases hre : rest = []
      · -- body is empty, so the code would be empty; then its single line is
        -- empty and cannot be an import line
        rw [hre] at hdata
        have hcodeEmpty : ex.code.data = [] := by
          simpa [joinNl] using hdata.symm
        have hlines1 : lines = [[]] := by
          rw [hlinesDef, hcodeEmpty]
          rfl
        rw [hlines1] at hbadMem
        have hbadNil : bad = [] := by simpa using hbadMem
        apply hbadImp
        rw [hbadNil]
        rfl
      · have h1 : (joinNl (rest.map (fun l => ' ' :: ' ' :: l))).count '\n' =
            (rest.map (fun l => ' ' :: ' ' :: l)).length - 1 := by
          apply countNl_joinNl
          · simpa using hre
          · intro l hl
            obtain ⟨l', hl', rfl⟩ := List.mem_map.mp hl
            have := hrestNoNl l' hl'
            simp_all
        rw [List.length_map] at h1
        have h2 : (ex.code.data).count '\n' = lines.length - 1 := by
          rw [← hcode]
          exact countNl_joinNl lines hlinesNe hlinesNoNl
        rw [h1, h2] at hcount
        have hrestPos : rest.length ≥ 1 := by
          cases hr : rest with
          | nil => exact absurd hr hre
          | cons a as => simp [hr]
        omega

/-! ## C5 — export resolution -/

theorem mem_dedupAux : ∀ (l : List String) (seen : List String) (x : String),
    x ∈ dedupAux seen l ↔ x ∈ l ∧ x ∉ seen := by
  intro l
  induction l with
  | nil => intro seen x; simp [dedupAux]
  | cons a as ih =>
    intro seen x
    simp only [dedupAux]
    by_cases ha : a ∈ seen
    · rw [if_pos ha, ih]
      constructor
      · rintro ⟨h1, h2⟩
        exact ⟨List.mem_cons_of_mem _ h1, h2⟩
      · rintro ⟨h1, h2⟩
        rcases List.mem_cons.mp h1 with rfl | h1
        · exact absurd ha h2
        · exact ⟨h1, h2⟩
    · rw [if_neg ha]
      constructor
      · intro h
        rcases List.mem_cons.mp h with rfl | h
        · exact ⟨List.mem_cons_self _ _, ha⟩
        · obtain ⟨h1, h2⟩ := (ih _ _).mp h
          simp only [List.mem_cons, not_or] at h2
          exact ⟨List.mem_cons_of_mem _ h1, h2.2⟩
      · rintro ⟨h1, h2⟩
        rcases List.mem_cons.mp h1 with rfl | h1
        · exact List.mem_cons_self _ _
        · by_cases hx : x = a
          · subst hx; exact List.mem_cons_self _ _
          · exact List.mem_cons_of_mem _ ((ih _ _).mpr ⟨h1, by simp [hx, h2]⟩)

theorem dedupAux_nodup : ∀ (l : List String) (seen : List String),
    (dedupAux seen l).Nodup := by
  intro l
  induction l with
  | nil => intro seen; simp [dedupAux]
  | cons a as ih =>
    intro seen
    simp only [dedupAux]
    by_cases ha : a ∈ seen
    · rw [if_pos ha]; exact ih seen
    · rw [if_neg ha]
      refine List.Nodup.cons ?_ (ih (a :: seen))
      intro hmem
      have := (mem_dedupAux as (a :: seen) a).mp hmem
      exact this.2 (List.mem_cons_self _ _)

theorem dedupAux_sublist : ∀ (l : List String) (seen : List String),
    (dedupAux seen l).Sublist l := by
  intro l
  induction l with
  | nil => intro seen; simp [dedupAux]
  | cons a as ih =>
    intro seen
    simp only [dedupAux]
    by_cases ha : a ∈ seen
    · rw [if_pos ha]
      exact (ih seen).cons a
    · rw [if_neg ha]
      exact (ih (a :: seen)).cons₂ a

/-- Single left-to-right scan collecting *both* export forms in position
order — the Export Resolver as the specification words it ("order of first
occurrence" in the file).  Used solely to compare spec against code. -/
def scanBoth : Nat → List Char → List (List Char)
  | 0, _ => []
  | _ + 1, [] => []
  | fuel + 1, c :: cs =>
    match matchDeclAt (c :: cs) with
    | some (nm, rest) => nm :: scanBoth fuel rest
    | none =>
      match matchNamedAt (c :: cs) with
      | some (inner, rest) => namedEntries inner ++ scanBoth fuel rest
      | none => scanBoth fuel cs

/-- The spec-side Export Resolver: names of both forms in file order,
deduplicated keeping first occurrences. -/
def specFileOrderExports (c : String) : List String :=
  dedupAux [] ((scanBoth c.data.length c.data).map (fun n => (⟨n⟩ : String)))

/-- Origin file whose batch export precedes its declaration export. -/
def c5src : String := "export \x7b b \x7d;\nexport function a() \x7b\x7d"

/-- C5 counterexample: the code collects all declaration-form exports
before any batch-form export, so for a file whose batch list precedes a
declaration the result is *not* in order of first occurrence in the file:
the code returns `["a", "b"]` where file order is `["b", "a"]`. -/
theorem export_names_order_refuted :
    getExportNames (some c5src) = ["a", "b"] ∧
    specFileOrderExports c5src = ["b", "a"] ∧
    getExportNames (some c5src) ≠ specFileOrderExports c5src := by
  refine ⟨by decide, by decide, by decide⟩

/-- C5 (amended): the Export Resolver returns the declaration-form export
names (in file order) followed by the batch-form entry names (in file
order, pre-alias, wildcard entries excluded), deduplicated keeping first
occurrences — hence without duplicates, a subsequence of that concatenated
scan, containing exactly the scanned names; an unreadable file yields the
empty set instead of an error. -/
theorem get_export_names_amended :
    getExportNames none = [] ∧
    (∀ c : String,
      getExportNames (some c) =
        dedupAux [] ((scanDecl c.data.length c.data).map (fun n => (⟨n⟩ : String)) ++
          (scanNamed c.data.length c.data).map (fun n => (⟨n⟩ : String))) ∧
      (getExportNames (some c)).Nodup ∧
      (getExportNames (some c)).Sublist
        ((scanDecl c.data.length c.data).map (fun n => (⟨n⟩ : String)) ++
          (scanNamed c.data.length c.data).map (fun n => (⟨n⟩ : String))) ∧
      (∀ x, x ∈ getExportNames (some c) ↔
        x ∈ (scanDecl c.data.length c.data).map (fun n => (⟨n⟩ : String)) ++
          (scanNamed c.data.length c.data).map (fun n => (⟨n⟩ : String)))) := by
  refine ⟨rfl, fun c => ⟨rfl, dedupAux_nodup _ _, dedupAux_sublist _ _, fun x => ?_⟩⟩
  rw [show getExportNames (some c) = dedupAux [] _ from rfl, mem_dedupAux]
  simp

/-! ## C3 — import separation and relative-import resolution -/

theorem matchFromAt_cons_ne_f (c : Char) (xs : List Char) (h : c ≠ 'f') :
    matchFromAt (c :: xs) = none := by
  unfold matchFromAt
  rw [if_neg]
  intro hcontra
  rw [show ("from" : String).data = 'f' :: ['r', 'o', 'm'] from rfl] at hcontra
  simp only [List.isPrefixOf, Bool.and_eq_true, beq_iff_eq] at hcontra
  exact h hcontra.1.symm

theorem matchFromTail_nonWs (u : List Char) (h : ∀ c ∈ u, jsWs c = false) :
    matchFromTail u = none := by
  cases u with
  | nil => rfl
  | cons c0 u' =>
    have hc0 := h c0 (List.mem_cons_self _ _)
    simp only [matchFromTail, hc0]
    simp

theorem matchFromAt_nonWs (cs : List Char) (h : ∀ c ∈ cs, jsWs c = false) :
    matchFromAt cs = none := by
  unfold matchFromAt
  split
  · exact matchFromTail_nonWs _ (fun c hc => h c (List.mem_of_mem_drop hc))
  · rfl

theorem replFromAux_nonWs (dir : String) :
    ∀ (cs : List Char), (∀ c ∈ cs, jsWs c = false) →
      ∀ fuel, replFromAux dir fuel cs = cs := by
  intro cs
  induction cs with
  | nil =>
    intro _ fuel
    cases fuel <;> rfl
  | cons c cs' ih =>
    intro h fuel
    cases fuel with
    | zero => rfl
    | succ f =>
      show replFromAux dir (f + 1) (c :: cs') = c :: cs'
      rw [show replFromAux dir (f + 1) (c :: cs') =
        (match matchFromAt (c :: cs') with
         | some fp =>
           fp.pre ++ (slashify (pathResolve dir ⟨fp.rel⟩)).data ++
             fp.quo :: replFromAux dir f fp.rest
         | none => c :: replFromAux dir f cs') from rfl]
      rw [matchFromAt_nonWs _ h]
      rw [ih (fun x hx => h x (List.mem_cons_of_mem _ hx)) f]

theorem replFromAux_skip (dir : String) :
    ∀ (B : List Char), (∀ c ∈ B, c ≠ 'f') → ∀ (fuel : Nat) (rest : List Char),
      replFromAux dir (B.length + fuel) (B ++ rest) = B ++ replFromAux dir fuel rest := by
  intro B
  induction B with
  | nil =>
    intro _ fuel rest
    simp
  | cons c B' ih =>
    intro h fuel rest
    have hlen : (c :: B').length + fuel = (B'.length + fuel) + 1 := by
      simp [List.length_cons]
      omega
    rw [hlen]
    show replFromAux dir ((B'.length + fuel) + 1) (c :: (B' ++ rest)) = _
    rw [show replFromAux dir ((B'.length + fuel) + 1) (c :: (B' ++ rest)) =
      (match matchFromAt (c :: (B' ++ rest)) with
       | some fp =>
         fp.pre ++ (slashify (pathResolve dir ⟨fp.rel⟩)).data ++
           fp.quo :: replFromAux dir (B'.length + fuel) fp.rest
       | none => c :: replFromAux dir (B'.length + fuel) (B' ++ rest)) from rfl]
    rw [matchFromAt_cons_ne_f c _ (h c (List.mem_cons_self _ _))]
    rw [ih (fun x hx => h x (List.mem_cons_of_mem _ hx)) fuel rest]
    rfl

theorem takeWhile_append_stop {p : Char → Bool} :
    ∀ (xs : List Char), (∀ x ∈ xs, p x = true) → ∀ (y : Char), p y = false →
      ∀ (ys : List Char), (xs ++ y :: ys).takeWhile p = xs ∧
        (xs ++ y :: ys).dropWhile p = y :: ys := by
  intro xs
  induction xs with
  | nil =>
    intro _ y hy ys
    constructor
    · simp [List.takeWhile, hy]
    · simp [List.dropWhile, hy]
  | cons x xs' ih =>
    intro h y hy ys
    have hx := h x (List.mem_cons_self _ _)
    obtain ⟨h1, h2⟩ := ih (fun a ha => h a (List.mem_cons_of_mem _ ha)) y hy ys
    constructor
    · simp [List.takeWhile, hx, h1]
    · simp [List.dropWhile, hx, h2]

theorem matchFromTail_sp_quote_cons (c0 : Char) (x : List Char) :
    matchFromTail (' ' :: '"' :: c0 :: x) =
      (match c0 :: x with
       | '.' :: v2 =>
         if (v2.takeWhile (fun c => !isQuote c)).isEmpty then none
         else
           match v2.drop (v2.takeWhile (fun c => !isQuote c)).length with
           | q2 :: rest2 => some ⟨"from".data ++ [' '] ++ ['"'],
               '.' :: v2.takeWhile (fun c => !isQuote c), q2, rest2⟩
           | [] => none
       | _ => none) := rfl

theorem matchFromAt_from_package (t : List Char) (hhd : t.head? ≠ some '.') :
    matchFromAt ('f' :: 'r' :: 'o' :: 'm' :: ' ' :: '"' :: (t ++ ['"', ';'])) = none := by
  unfold matchFromAt
  rw [if_pos (by simp [List.isPrefixOf])]
  cases t with
  | nil =>
    show matchFromTail (' ' :: '"' :: '"' :: [';']) = none
    rfl
  | cons c0 t'' =>
    have hc0 : c0 ≠ '.' := by simpa using hhd
    show matchFromTail (' ' :: '"' :: c0 :: (t'' ++ ['"', ';'])) = none
    rw [matchFromTail_sp_quote_cons]
    split
    · next v2 heq =>
      injection heq with h1 _
      exact absurd h1 hc0
    · rfl

theorem matchFromAt_from_relative (t' : List Char)
    (hq : ∀ c ∈ t', isQuote c = false) (hne : t' ≠ []) :
    matchFromAt ('f' :: 'r' :: 'o' :: 'm' :: ' ' :: '"' :: ('.' :: (t' ++ ['"', ';']))) =
      some ⟨"from".data ++ [' '] ++ ['"'], '.' :: t', '"', [';']⟩ := by
  unfold matchFromAt
  rw [if_pos (by simp [List.isPrefixOf])]
  show matchFromTail (' ' :: '"' :: '.' :: (t' ++ ['"', ';'])) =
    some ⟨"from".data ++ [' '] ++ ['"'], '.' :: t', '"', [';']⟩
  rw [matchFromTail_sp_quote_cons]
  obtain ⟨htake, hdrop⟩ := takeWhile_append_stop (p := fun c => !isQuote c) t'
    (fun c hc => by simp [hq c hc]) '"' (by rfl) [';']
  have hips : t'.isEmpty = false := by
    cases t' with
    | nil => exact absurd rfl hne
    | cons a as => rfl
  have hdropLen : (t' ++ ['"', ';']).drop t'.length = ['"', ';'] := List.drop_left _ _
  split
  · next v2 heq =>
    injection heq with _ h2
    subst h2
    rw [htake, hips, hdropLen]
    rfl
  · next hno =>
    exact absurd rfl (hno (t' ++ ['"', ';']))

theorem replFromAux_step_none (dir : String) (fuel : Nat) (c : Char) (cs : List Char)
    (h : matchFromAt (c :: cs) = none) :
    replFromAux dir (fuel + 1) (c :: cs) = c :: replFromAux dir fuel cs := by
  rw [show replFromAux dir (fuel + 1) (c :: cs) =
    (match matchFromAt (c :: cs) with
     | some fp =>
       fp.pre ++ (slashify (pathResolve dir ⟨fp.rel⟩)).data ++
         fp.quo :: replFromAux dir fuel fp.rest
     | none => c :: replFromAux dir fuel cs) from rfl]
  rw [h]

theorem replFromAux_step_some (dir : String) (fuel : Nat) (c : Char) (cs : List Char)
    (fp : FromParts) (h : matchFromAt (c :: cs) = some fp) :
    replFromAux dir (fuel + 1) (c :: cs) =
      fp.pre ++ (slashify (pathResolve dir ⟨fp.rel⟩)).data ++
        fp.quo :: replFromAux dir fuel fp.rest := by
  rw [show replFromAux dir (fuel + 1) (c :: cs) =
    (match matchFromAt (c :: cs) with
     | some fp =>
       fp.pre ++ (slashify (pathResolve dir ⟨fp.rel⟩)).data ++
         fp.quo :: replFromAux dir fuel fp.rest
     | none => c :: replFromAux dir fuel cs) from rfl]
  rw [h]

theorem import_head_not_f (b : List Char) (hb : ∀ c ∈ b, c ≠ 'f') :
    ∀ c ∈ ("import ".data ++ b ++ [' ']), c ≠ 'f' := by
  intro c hc hcf
  subst hcf
  rcases List.mem_append.mp hc with hc1 | hc1
  · rcases List.mem_append.mp hc1 with hc2 | hc2
    · rw [show ("import " : String).data = ['i', 'm', 'p', 'o', 'r', 't', ' '] from rfl]
        at hc2
      simp at hc2
    · exact hb 'f' hc2 rfl
  · simp at hc1

/-- Rewriting leaves a `from`-import of a package-style target unchanged:
the scan passes the `import`-clause region (no `f` by hypothesis), fails at
the real `from` because the target does not begin with `.`, and the
whitespace-free tail admits no further match. -/
theorem replFrom_package (dir : String) (b t : List Char)
    (hb : ∀ c ∈ b, c ≠ 'f') (ht : ∀ c ∈ t, jsWs c = false)
    (hhd : t.head? ≠ some '.') :
    replFromAux dir
      (("import ".data ++ b ++ [' ']) ++
        ('f' :: 'r' :: 'o' :: 'm' :: ' ' :: '"' :: (t ++ ['"', ';']))).length
      (("import ".data ++ b ++ [' ']) ++
        ('f' :: 'r' :: 'o' :: 'm' :: ' ' :: '"' :: (t ++ ['"', ';']))) =
      ("import ".data ++ b ++ [' ']) ++
        ('f' :: 'r' :: 'o' :: 'm' :: ' ' :: '"' :: (t ++ ['"', ';'])) := by
  set B := "import ".data ++ b ++ [' '] with hB
  set R1 := 'r' :: 'o' :: 'm' :: ' ' :: '"' :: (t ++ ['"', ';']) with hR1
  rw [List.length_append]
  rw [replFromAux_skip dir B (import_head_not_f b hb) _ _]
  congr 1
  rw [show ('f' :: R1).length = R1.length + 1 from by simp]
  rw [replFromAux_step_none dir R1.length 'f' R1 (matchFromAt_from_package t hhd)]
  congr 1
  rw [hR1]
  rw [show ('r' :: 'o' :: 'm' :: ' ' :: '"' :: (t ++ ['"', ';'])) =
    ['r', 'o', 'm', ' ', '"'] ++ (t ++ ['"', ';']) from rfl]
  rw [show (['r', 'o', 'm', ' ', '"'] ++ (t ++ ['"', ';'])).length =
    (['r', 'o', 'm', ' ', '"'] : List Char).length + (t ++ ['"', ';']).length from
    List.length_append _ _]
  rw [replFromAux_skip dir ['r', 'o', 'm', ' ', '"'] (by decide) _ _]
  congr 1
  apply replFromAux_nonWs
  intro c hc
  rcases List.mem_append.mp hc with hc | hc
  · exact ht c hc
  · have : c = '"' ∨ c = ';' := by simpa using hc
    rcases this with rfl | rfl <;> decide

/-- Rewriting replaces a `from`-import of a relative target with the
absolute resolved path: the scan passes the `import`-clause region and
matches at the real `from`. -/
theorem replFrom_relative (dir : String) (b t' : List Char)
    (hb : ∀ c ∈ b, c ≠ 'f') (hq : ∀ c ∈ t', isQuote c = false) (hne : t' ≠ []) :
    replFromAux dir
      (("import ".data ++ b ++ [' ']) ++
        ('f' :: 'r' :: 'o' :: 'm' :: ' ' :: '"' :: ('.' :: (t' ++ ['"', ';'])))).length
      (("import ".data ++ b ++ [' ']) ++
        ('f' :: 'r' :: 'o' :: 'm' :: ' ' :: '"' :: ('.' :: (t' ++ ['"', ';'])))) =
      ("import ".data ++ b ++ [' ']) ++
        ("from".data ++ [' '] ++ ['"'] ++
          (slashify (pathResolve dir ⟨'.' :: t'⟩)).data ++ ('"' :: [';'])) := by
  set B := "import ".data ++ b ++ [' '] with hB
  set R1 := 'r' :: 'o' :: 'm' :: ' ' :: '"' :: ('.' :: (t' ++ ['"', ';'])) with hR1
  rw [List.length_append]
  rw [replFromAux_skip dir B (import_head_not_f b hb) _ _]
  congr 1
  rw [show ('f' :: R1).length = R1.length + 1 from by simp]
  rw [replFromAux_step_some dir R1.length 'f' R1 _ (matchFromAt_from_relative t' hq hne)]
  have hrest : replFromAux dir R1.length [';'] = [';'] := by
    apply replFromAux_nonWs
    intro c hc
    have : c = ';' := by simpa using hc
    rw [this]
    rfl
  rw [hrest]

theorem isImportLine_cons_sp (x : List Char) :
    isImportLine ('i' :: 'm' :: 'p' :: 'o' :: 'r' :: 't' :: ' ' :: x) = true := rfl

theorem line_shape (b t : String) :
    ("import " ++ b ++ " from \"" ++ t ++ "\";").data =
      ("import ".data ++ b.data ++ [' ']) ++
        ('f' :: 'r' :: 'o' :: 'm' :: ' ' :: '"' :: (t.data ++ ['"', ';'])) := by
  simp only [String.data_append]
  simp

theorem line_no_nl (b t : String) (hbn : ∀ c ∈ b.data, c ≠ '\n')
    (htn : ∀ c ∈ t.data, c ≠ '\n') :
    '\n' ∉ ("import " ++ b ++ " from \"" ++ t ++ "\";").data := by
  rw [line_shape]
  intro hmem
  rcases List.mem_append.mp hmem with h | h
  · rcases List.mem_append.mp h with h1 | h1
    · rcases List.mem_append.mp h1 with h2 | h2
      · rw [show ("import " : String).data = ['i', 'm', 'p', 'o', 'r', 't', ' '] from rfl]
          at h2
        simp at h2
      · exact hbn '\n' h2 rfl
    · simp at h1
  · simp only [List.mem_cons] at h
    rcases h with h | h | h | h | h | h | h
    · exact absurd h (by decide)
    · exact absurd h (by decide)
    · exact absurd h (by decide)
    · exact absurd h (by decide)
    · exact absurd h (by decide)
    · exact absurd h (by decide)
    · rcases List.mem_append.mp h with h2 | h2
      · exact htn '\n' h2 rfl
      · simp at h2

/-- C3 (amended): import separation classifies exactly the `^\s*import\s+`
lines as import lines, applies the `from`-clause rewrite to them, and
leaves all other lines untouched; within an import line, a `from`-clause
target beginning with `.` is rewritten to its absolute resolution against
the origin file's directory, while a package-style `from`-clause target is
left unchanged.  (Per the counterexample, an import line *without* a `from`
clause — a side-effect import — is never rewritten, even for a relative
target.) -/
theorem extract_imports_amended :
    (∀ (code sf cwd : String),
      extractImports code sf cwd =
        ⟨((splitNl code.data).filter isImportLine).map
            (fun l => (⟨replFrom (sourceDirOf cwd sf) l⟩ : String)),
         ((splitNl code.data).filter (fun l => !isImportLine l)).map
            (fun l => (⟨l⟩ : String))⟩) ∧
    (∀ (b t sf cwd : String),
      (∀ c ∈ b.data, c ≠ 'f') → (∀ c ∈ b.data, c ≠ '\n') →
      (∀ c ∈ t.data, jsWs c = false) → t.data.head? ≠ some '.' →
      extractImports ("import " ++ b ++ " from \"" ++ t ++ "\";") sf cwd =
        ⟨["import " ++ b ++ " from \"" ++ t ++ "\";"], []⟩) ∧
    (∀ (b : String) (t' : List Char) (sf cwd : String),
      (∀ c ∈ b.data, c ≠ 'f') → (∀ c ∈ b.data, c ≠ '\n') →
      (∀ c ∈ t', isQuote c = false) → (∀ c ∈ t', c ≠ '\n') → t' ≠ [] →
      extractImports ("import " ++ b ++ " from \"" ++ (⟨'.' :: t'⟩ : String) ++ "\";")
          sf cwd =
        ⟨["import " ++ b ++ " from \"" ++
            slashify (pathResolve (sourceDirOf cwd sf) ⟨'.' :: t'⟩) ++ "\";"], []⟩) := by
  refine ⟨?_, ?_, ?_⟩
  · intro code sf cwd
    unfold extractImports
    exact extractImportsAux_eq _ _
  · intro b t sf cwd hbf hbn htw hhd
    have htn : ∀ c ∈ t.data, c ≠ '\n' := by
      intro c hc heq
      have := htw c hc
      rw [heq] at this
      exact absurd this (by decide)
    have hnl := line_no_nl b t hbn htn
    unfold extractImports
    rw [show splitNl ("import " ++ b ++ " from \"" ++ t ++ "\";").data =
      [("import " ++ b ++ " from \"" ++ t ++ "\";").data] from
      splitOnChar_no_sep '\n' _ hnl]
    have himp : isImportLine ("import " ++ b ++ " from \"" ++ t ++ "\";").data = true := by
      rw [line_shape]
      rw [show ("import ".data ++ b.data ++ [' ']) ++
        ('f' :: 'r' :: 'o' :: 'm' :: ' ' :: '"' :: (t.data ++ ['"', ';'])) =
        'i' :: 'm' :: 'p' :: 'o' :: 'r' :: 't' :: ' ' ::
          (b.data ++ [' '] ++
            ('f' :: 'r' :: 'o' :: 'm' :: ' ' :: '"' :: (t.data ++ ['"', ';'])))
        from by simp]
      exact isImportLine_cons_sp _
    have hrepl : replFrom (sourceDirOf cwd sf)
        ("import " ++ b ++ " from \"" ++ t ++ "\";").data =
        ("import " ++ b ++ " from \"" ++ t ++ "\";").data := by
      unfold replFrom
      rw [line_shape]
      exact replFrom_package (sourceDirOf cwd sf) b.data t.data hbf htw hhd
    simp only [extractImportsAux, himp, hrepl]
    rfl
  · intro b t' sf cwd hbf hbn hq htn' hne
    have htdata : ((⟨'.' :: t'⟩ : String)).data = '.' :: t' := rfl
    have htn : ∀ c ∈ ((⟨'.' :: t'⟩ : String)).data, c ≠ '\n' := by
      intro c hc
      rw [htdata] at hc
      rcases List.mem_cons.mp hc with rfl | hc
      · decide
      · exact htn' c hc
    have hnl := line_no_nl b ⟨'.' :: t'⟩ hbn htn
    unfold extractImports
    rw [show splitNl ("import " ++ b ++ " from \"" ++ (⟨'.' :: t'⟩ : String) ++ "\";").data =
      [("import " ++ b ++ " from \"" ++ (⟨'.' :: t'⟩ : String) ++ "\";").data] from
      splitOnChar_no_sep '\n' _ hnl]
    have himp : isImportLine
        ("import " ++ b ++ " from \"" ++ (⟨'.' :: t'⟩ : String) ++ "\";").data = true := by
      rw [line_shape]
      rw [show ("import ".data ++ b.data ++ [' ']) ++
        ('f' :: 'r' :: 'o' :: 'm' :: ' ' :: '"' ::
          (((⟨'.' :: t'⟩ : String)).data ++ ['"', ';'])) =
        'i' :: 'm' :: 'p' :: 'o' :: 'r' :: 't' :: ' ' ::
          (b.data ++ [' '] ++
            ('f' :: 'r' :: 'o' :: 'm' :: ' ' :: '"' ::
              (((⟨'.' :: t'⟩ : String)).data ++ ['"', ';'])))
        from by simp]
      exact isImportLine_cons_sp _
    have hrepl : (⟨replFrom (sourceDirOf cwd sf)
        ("import " ++ b ++ " from \"" ++ (⟨'.' :: t'⟩ : String) ++ "\";").data⟩ : String) =
        "import " ++ b ++ " from \"" ++
          slashify (pathResolve (sourceDirOf cwd sf) ⟨'.' :: t'⟩) ++ "\";" := by
      apply String.ext
      show replFrom _ _ = _
      unfold replFrom
      rw [line_shape b ⟨'.' :: t'⟩]
      rw [show ('f' :: 'r' :: 'o' :: 'm' :: ' ' :: '"' ::
          (((⟨'.' :: t'⟩ : String)).data ++ ['"', ';'])) =
        ('f' :: 'r' :: 'o' :: 'm' :: ' ' :: '"' :: ('.' :: (t' ++ ['"', ';'])))
        from by rw [htdata]; simp]
      rw [replFrom_relative (sourceDirOf cwd sf) b.data t' hbf hq hne]
      rw [line_shape b (slashify (pathResolve (sourceDirOf cwd sf) ⟨'.' :: t'⟩))]
      simp
    simp only [extractImportsAux, himp]
    rw [hrepl]
    rfl

/-- C3 counterexample: a side-effect import whose target begins with `./`
is classified as an import line but returned unchanged — the relative
literal `./x.js` still appears, where the claim requires it to be rewritten
away. -/
theorem import_rewrite_refuted :
    isImportLine ("import \"./x.js\";" : String).data = true ∧
    (extractImports "import \"./x.js\";" "/proj/src/utils.ts" "/proj").imports =
      ["import \"./x.js\";"] ∧
    containsSub "./x.js".data ("import \"./x.js\";" : String).data = true := by
  refine ⟨by decide, by decide, by decide⟩

/-- Witness for the amended C3 at concrete inputs. -/
theorem extract_imports_amended_witness :
    extractImports ("import " ++ "_" ++ " from \"" ++ "lodash" ++ "\";")
        "/proj/src/utils.ts" "/proj" =
      ⟨["import " ++ "_" ++ " from \"" ++ "lodash" ++ "\";"], []⟩ ∧
    extractImports ("import " ++ "x" ++ " from \"" ++ (⟨'.' :: "/math.js".data⟩ : String) ++
        "\";") "/proj/src/utils.ts" "/proj" =
      ⟨["import " ++ "x" ++ " from \"" ++
          slashify (pathResolve (sourceDirOf "/proj" "/proj/src/utils.ts")
            ⟨'.' :: "/math.js".data⟩) ++ "\";"], []⟩ := by
  constructor
  · exact extract_imports_amended.2.1 "_" "lodash" "/proj/src/utils.ts" "/proj"
      (by decide) (by decide) (by decide) (by decide)
  · exact extract_imports_amended.2.2 "x" "/math.js".data "/proj/src/utils.ts" "/proj"
      (by decide) (by decide) (by decide) (by decide) (by decide)

end TsTestdoc
